import Mathlib

/-!
# bloggy: a verification development

A shallow embedding of `src/bloggy.go` (a static-site build pipeline) and
theorems about it.

Conventions of the embedding.

* A Go `string` / `[]byte` is a list of bytes (`Bytes`); indices and slices
  count bytes, as in Go.
* A Go `panic` (an explicit `panic(..)`, an index or slice out of range) of a
  pure function is the value `none`. Stateful code passes its state explicitly
  and returns an `Outcome` (a value, a panic, or a call that blocks forever)
  together with the state reached, also when it does not return.
* Standard-library functions (`strings.Index`, `strings.SplitN`,
  `strings.Replace`, `filepath.Base`, `time.Parse`, the insertion sort of
  `sort.Sort`, `hash/fnv`, `strconv.Itoa`, `regexp`) are embedded from their Go
  sources for the arguments `bloggy.go` passes to them.
* External collaborators (the Markdown engine, the template engine,
  `html.UnescapeString`, the `pygmentize` subprocess, the directory listing,
  the content of the files, the capacity of a pipe, what a write to the cache
  directory leaves, and the library's `sort.Sort`, whose order of elements of
  equal date depends on the version of Go) are parameters, collected in `Env`.
* The error of `ioutil.WriteFile` and `os.MkdirAll` is dropped by the code. A
  write to the cache directory is embedded with what it leaves in the file; a
  write under the build directory is embedded as the call made.
-/

namespace Bloggy

/-- A Go string or byte slice. -/
abbrev Bytes := List UInt8

/-- The bytes (UTF-8) of a string literal. -/
def lit (s : String) : Bytes := s.toUTF8.data.toList

/-- Why a call does not return: a Go panic, or a call that blocks forever. -/
inductive Stop where
  | panic
  | hang
deriving DecidableEq, Repr

/-- How a call ends: it returns a value, or it does not return. -/
inductive Outcome (α : Type) where
  | ok (a : α)
  | stop (s : Stop)
deriving DecidableEq, Repr

/-! ## `strings` -/

/-- Go `strings.HasPrefix s p`. -/
def HasPrefix : Bytes → Bytes → Bool
  | _, [] => true
  | [], _ :: _ => false
  | c :: s, d :: p => c == d && HasPrefix s p

/-- Go `strings.Index s sep`: the byte offset of the first occurrence of `sep`
in `s`; `none` stands for Go's `-1`. -/
def Index : Bytes → Bytes → Option Nat
  | [], sep => if HasPrefix [] sep then some 0 else none
  | c :: s, sep =>
    if HasPrefix (c :: s) sep then some 0
    else (Index s sep).map (· + 1)

/-- Go `strings.Replace s old new 1` for a non-empty `old` different from
`new`: the first occurrence of `old` is replaced, if there is one. -/
def Replace1 (s old new : Bytes) : Bytes :=
  match Index s old with
  | none => s
  | some j => s.take j ++ new ++ s.drop (j + old.length)

/-- The loop of Go `strings.genSplit` for a one-byte separator: at most `n`
cuts. -/
def splitLoop (sep : UInt8) : Nat → Bytes → List Bytes
  | 0, s => [s]
  | n + 1, s =>
    match Index s [sep] with
    | none => [s]
    | some m => s.take m :: splitLoop sep n (s.drop (m + 1))

/-- Go `strings.SplitN s sep n` for a one-byte separator and `n > 0`
(`genSplit` caps `n` at `len(s) + 1`, then cuts `n - 1` times). -/
def SplitN (s : Bytes) (sep : UInt8) (n : Nat) : List Bytes :=
  splitLoop sep (min n (s.length + 1) - 1) s

/-! ## `path/filepath` (Unix) -/

/-- The byte `/`. -/
def slash : UInt8 := 47

/-- Strip trailing slashes (first loop of `filepath.Base`), on the reversed
path. -/
def stripSlashesRev : Bytes → Bytes
  | [] => []
  | c :: s => if c == slash then stripSlashesRev s else c :: s

/-- The last path element (second loop of `filepath.Base`), on the reversed
path: the bytes before the first slash met from the end. -/
def lastElemRev : Bytes → Bytes
  | [] => []
  | c :: s => if c == slash then [] else c :: lastElemRev s

/-- Go `filepath.Base` on Unix (no volume name). -/
def Base (path : Bytes) : Bytes :=
  if path = [] then lit "."
  else
    let p := (lastElemRev (stripSlashesRev path.reverse)).reverse
    if p = [] then [slash] else p

/-! ## `time` -/

/-- A Go `time.Time` in UTC: seconds since 1970-01-01T00:00:00Z and the
nanoseconds within the second. -/
structure Time where
  sec : Int
  nsec : Nat
deriving DecidableEq, Repr

/-- Go `Time.Unix`. -/
def Time.Unix (t : Time) : Int := t.sec

/-- Go `time.isLeap`. -/
def isLeap (year : Int) : Bool :=
  year % 4 == 0 && (year % 100 != 0 || year % 400 == 0)

/-- Go `time.daysBefore`: `daysBefore[m]` counts the days of a non-leap year
before month `m + 1`. -/
def daysBefore : List Int :=
  [0, 31, 59, 90, 120, 151, 181, 212, 243, 273, 304, 334, 365]

/-- Go `time.daysIn`. -/
def daysIn (m : Nat) (year : Int) : Int :=
  if m == 2 && isLeap year then 29
  else daysBefore.getD m 0 - daysBefore.getD (m - 1) 0

/-- Days from 0001-01-01 to the first of January of `year` (proleptic
Gregorian calendar). -/
def daysBeforeYear (year : Int) : Int :=
  365 * (year - 1) + (year - 1) / 4 - (year - 1) / 100 + (year - 1) / 400

/-- Go `time.Date(year, month, day, hour, min, sec, nsec, time.UTC)` for
arguments in their normal ranges (no normalisation is needed): the days since
the epoch are the days before the year, before the month (one more from March
of a leap year) and before the day. -/
def Date (year : Int) (month day hour min sec nsec : Nat) : Time :=
  let d : Int := daysBeforeYear year + daysBefore.getD (month - 1) 0
    + (if isLeap year && 3 ≤ month then 1 else 0) + ((day : Int) - 1)
  { sec := (d - 719162) * 86400 + (hour * 3600 + min * 60 + sec : Nat),
    nsec := nsec }

/-- Go `time.isDigit`. -/
def isDigit (s : Bytes) (i : Nat) : Bool :=
  match s.get? i with
  | none => false
  | some c => 48 ≤ c.toNat && c.toNat ≤ 57

/-- The value of the decimal digit at `s[i]` (`int(s[i] - '0')`). -/
def digitAt (s : Bytes) (i : Nat) : Nat :=
  match s.get? i with
  | none => 0
  | some c => c.toNat - 48

/-- Go `time.leadingInt`: the leading decimal digits of `s` as a number, and
the rest; `none` on overflow of 63 bits. -/
def leadingInt : Bytes → Nat → Option (Nat × Bytes)
  | [], x => some (x, [])
  | c :: s, x =>
    if c.toNat < 48 || c.toNat > 57 then some (x, c :: s)
    else if x > 2 ^ 63 / 10 then none
    else
      let x1 := x * 10 + (c.toNat - 48)
      if x1 > 2 ^ 63 then none else leadingInt s x1

/-- Go `time.atoi`: an optional sign, then digits only. -/
def atoi (s : Bytes) : Option Int :=
  let neg := s.head? == some 45
  let s1 := if s.head? == some 45 || s.head? == some 43 then s.drop 1 else s
  match leadingInt s1 0 with
  | none => none
  | some (q, rem) =>
    if rem ≠ [] then none
    else some (if neg then -(q : Int) else q)

/-- Go `time.getnum`: one or two digits (two when `fixed`). -/
def getnum (s : Bytes) (fixed : Bool) : Option (Nat × Bytes) :=
  if !isDigit s 0 then none
  else if !isDigit s 1 then
    if fixed then none else some (digitAt s 0, s.drop 1)
  else some (digitAt s 0 * 10 + digitAt s 1, s.drop 2)

/-- Go `time.skip value "-"`: the literal hyphen of the layout. -/
def skipHyphen (value : Bytes) : Option Bytes :=
  match value with
  | [] => none
  | c :: rest => if c != 45 then none else some rest

/-- Go `time.Parse("2006-01-02", value)`: the layout is a four-digit year
(`stdLongYear`), a hyphen, a two-digit month (`stdZeroMonth`), a hyphen and a
two-digit day (`stdZeroDay`); no text may follow; the month is checked when
read and the day once the whole value is read. The result is midnight UTC. -/
def Parse (value : Bytes) : Option Time :=
  if value.length < 4 || !isDigit value 0 then none
  else
    match atoi (value.take 4) with
    | none => none
    | some year =>
      match skipHyphen (value.drop 4) with
      | none => none
      | some v1 =>
        match getnum v1 true with
        | none => none
        | some (month, v2) =>
          if month ≤ 0 || 12 < month then none
          else
            match skipHyphen v2 with
            | none => none
            | some v3 =>
              match getnum v3 true with
              | none => none
              | some (day, v4) =>
                if v4 ≠ [] then none
                else if (day : Int) < 1 || (day : Int) > daysIn month year then none
                else some (Date year month day 0 0 0 0)

/-! ## Posts -/

/-- Go `type Post struct`. -/
structure Post where
  Content : Bytes
  Slug : Bytes
  SourcePath : Bytes
  Title : Bytes
  Url : Bytes
  Date : Time
deriving DecidableEq, Repr

/-- Go `type PostSlice []*Post`. Every `*Post` of a run comes from its own
`new(Post)` in `loadPost`, so the pointers never alias and the slice is a list
of values. -/
abbrev PostSlice := List Post

/-- Go `s[i:j]` on a string: panics unless `i ≤ j ≤ len(s)`. -/
def slice (s : Bytes) (i j : Nat) : Option Bytes :=
  if i ≤ j ∧ j ≤ s.length then some ((s.take j).drop i) else none

/-- Go `s[i:]` on a string: panics unless `i ≤ len(s)`. -/
def sliceFrom (s : Bytes) (i : Nat) : Option Bytes :=
  if i ≤ s.length then some (s.drop i) else none

/-- Go `loadPost`. -/
def loadPost (path : Bytes) : Option Post :=
  let markdownBasename := Base path
  match slice markdownBasename 0 10 with
  | none => none
  | some datePart =>
    match sliceFrom markdownBasename 11 with
    | none => none
    | some namePart =>
      let slug := Replace1 namePart (lit ".md") []
      match Parse datePart with
      | none => none
      | some date =>
        some { Content := [], Slug := slug, SourcePath := path, Title := [],
               Url := lit "/" ++ slug, Date := date }

/-! ## `sort` and `PostSlice` -/

/-- Go `PostSlice.Less`, on the two elements compared. -/
def Less (a b : Post) : Bool := decide (a.Date.Unix < b.Date.Unix)

/-- The inner loop of Go's `insertionSort`
(`for j := i; j > a && data.Less(j, j-1); j-- { data.Swap(j, j-1) }`):
the element `x` at index `j` is swapped leftwards while it is `Less` than its
left neighbour. `left` is `data[0:j]` from right to left; the result is
`data[0:j+1]` from right to left. -/
def sinkLeft (x : Post) : List Post → List Post
  | [] => [x]
  | y :: left => if Less x y then y :: sinkLeft x left else x :: y :: left

/-- Go's `insertionSort(data, 0, n)`: the outer loop sinks each element in
turn into the part before it. On a slice of at most six elements `sort.Sort`
is exactly this in every version of Go (of at most twelve from Go 1.19 on). On
a longer slice `sort.Sort` runs a quicksort variant that depends on the
version: its result is a rearrangement in ascending order of `Less`, and the
order of elements of equal date is not fixed. -/
def insertionSort (p : PostSlice) : PostSlice :=
  (p.foldl (fun left x => sinkLeft x left) []).reverse

/-- Go `sort.reverse`: the wrapper whose `Less` is the `Less` of the embedded
value with the arguments exchanged. -/
structure reverse where
  Interface : PostSlice

/-- Go `reverse.Less`, on the two elements compared. -/
def reverse.Less (_ : reverse) (a b : Post) : Bool := Bloggy.Less b a

/-- Go `sort.Reverse(data)`: it builds the wrapper and sorts nothing. -/
def Reverse (data : PostSlice) : reverse := { Interface := data }

/-- Go `PostSlice.Sort`: `sort.Sort(p); sort.Reverse(p)`, with the library's
`sort.Sort` as `sortSort`. The value of `sort.Reverse(p)` is dropped. -/
def PostSlice.Sort (sortSort : PostSlice → PostSlice) (p : PostSlice) : PostSlice :=
  let sorted := sortSort p
  let _dropped := Reverse sorted
  sorted

/-- Go `PostSlice.Limit`; `p[0:n]` panics for a negative `n`. -/
def PostSlice.Limit (p : PostSlice) (n : Int) : Option PostSlice :=
  if (p.length : Int) ≤ n then some p
  else if 0 ≤ n then some (p.take n.toNat)
  else none

/-! ## `hash/fnv` and `strconv` -/

/-- Go `fnv.offset32`. -/
def offset32 : Nat := 2166136261

/-- Go `fnv.prime32`. -/
def prime32 : Nat := 16777619

/-- One step of Go `(*sum32).Write`: `hash *= prime32; hash ^= sum32(c)` on
32 bits. -/
def fnvStep (hash : Nat) (c : UInt8) : Nat :=
  Nat.xor (hash * prime32 % 2 ^ 32) c.toNat

/-- Go `fnv.New32()`, `Write(data)`, `Sum32()`: the 32-bit FNV-1 hash. -/
def fnv32 (data : Bytes) : Nat := data.foldl fnvStep offset32

/-- The decimal digits of `n`, least significant first; `k + 1` bounds the
number of digits. -/
def digitsRev : Nat → Nat → Bytes
  | 0, n => [UInt8.ofNat (48 + n % 10)]
  | k + 1, n =>
    if n < 10 then [UInt8.ofNat (48 + n)]
    else UInt8.ofNat (48 + n % 10) :: digitsRev k (n / 10)

/-- Go `strconv.Itoa` on a 64-bit `int` (at most 19 digits). -/
def Itoa (i : Int) : Bytes :=
  (if i < 0 then [45] else []) ++ (digitsRev 18 i.natAbs).reverse

/-! ## The regular expression -/

/-- The literal that opens a match, up to the language tag. -/
def openTag : Bytes := lit "<pre><code class=\""

/-- The literal between the language tag and the code. -/
def midTag : Bytes := lit "\">"

/-- The literal that closes a match. -/
def closeTag : Bytes := lit "</code></pre>"

/-- A match of `regex`: where it starts and its two groups. -/
structure Match where
  start : Nat
  lang : Bytes
  content : Bytes
deriving DecidableEq, Repr

/-- The matched text `src[a[0]:a[1]]`. -/
def Match.text (m : Match) : Bytes :=
  openTag ++ m.lang ++ midTag ++ m.content ++ closeTag

/-- The end `a[1]` of the match. -/
def Match.stop (m : Match) : Nat := m.start + m.text.length

/-- The first match of
`(?ms)<pre><code class="(.*?)">(.*?)</code></pre>` in `s` (Go's leftmost-first
semantics). With `(?s)`, `.` takes any byte sequence, and both groups are lazy:
the match starts at the first occurrence of the opening literal, the first
group ends at the first `">` after it and the second group at the first
`</code></pre>` after that. When one of the three is missing, no later start
can match either. -/
def find (s : Bytes) : Option Match :=
  match Index s openTag with
  | none => none
  | some i =>
    let s1 := s.drop (i + openTag.length)
    match Index s1 midTag with
    | none => none
    | some j =>
      let s2 := s1.drop (j + midTag.length)
      match Index s2 closeTag with
      | none => none
      | some k => some { start := i, lang := s1.take j, content := s2.take k }

/-- Go `regex.FindSubmatch(in)`: the two groups of the first match (`outs[1]`
and `outs[2]`). -/
def FindSubmatch (s : Bytes) : Option (Bytes × Bytes) :=
  (find s).map (fun m => (m.lang, m.content))

/-- Go `regex.ReplaceAllFunc(src, repl)` with a replacer that has an effect on
a state and may panic: the text before each match is copied, the match is
replaced by `repl` of the matched text, and the search goes on after the match
(a match is never empty); a replacement that does not return ends the call.
`fuel` bounds the number of matches; `src.length` is enough. -/
def replaceAll {σ : Type} (repl : Bytes → σ → Outcome Bytes × σ) :
    Nat → Bytes → σ → Outcome Bytes × σ
  | 0, src, w => (.ok src, w)
  | fuel + 1, src, w =>
    match find src with
    | none => (.ok src, w)
    | some m =>
      match repl m.text w with
      | (.stop s, w1) => (.stop s, w1)
      | (.ok r, w1) =>
        match replaceAll repl fuel (src.drop m.stop) w1 with
        | (.stop s, w2) => (.stop s, w2)
        | (.ok rest, w2) => (.ok (src.take m.start ++ r ++ rest), w2)

/-! ## The build -/

/-- Go `BuildDir`. -/
def BuildDir : Bytes := lit "public"

/-- What the run reads from outside: the directory listing, the files of the
posts directory, and the external collaborators. -/
structure Env where
  /-- The result of `filepath.Glob(PostsDir + "/*.md")`. -/
  Glob : List Bytes
  /-- The library's `sort.Sort` on a `PostSlice` (see `insertionSort`). -/
  sortSort : PostSlice → PostSlice
  /-- The `ioutil.ReadFile` of a source path; `none` is an error. -/
  ReadFile : Bytes → Option Bytes
  /-- The `blackfriday.MarkdownCommon` engine. -/
  MarkdownCommon : Bytes → Bytes
  /-- `template.ParseFiles(PostLayout)`, `none` when it fails, and what
  `ExecuteTemplate` leaves in the buffer for a post. -/
  postLayout : Option (Post → Bytes)
  /-- `template.ParseFiles(IndexSource)`, `none` when it fails, and what
  `ExecuteTemplate` leaves in the buffer for the posts under `"Recent"`. -/
  indexLayout : Option (PostSlice → Bytes)
  /-- The `html.UnescapeString` function. -/
  UnescapeString : Bytes → Bytes
  /-- The number of bytes a pipe takes while nothing reads from it. -/
  pipeBuffer : Nat
  /-- The `pygmentize -fhtml -l lang` subprocess: from the invocations made so
  far, the language and the standard input to its output; it can also exit
  with an error (`cmd.Output` returns it and the code panics) or never exit. -/
  highlighter : List (Bytes × Bytes) → Bytes → Bytes → Outcome Bytes
  /-- What `ioutil.WriteFile` leaves to read under a name of the cache
  directory, from the invocations made so far, the name and the content to
  write: the content when the write succeeds, and nothing or other bytes when
  it fails. -/
  cacheWrite : List (Bytes × Bytes) → Bytes → Bytes → Option Bytes
  /-- The run of `cp -rf static public`: it succeeds, it fails (`cmd.Run`
  returns the error and the code panics) or it never exits. -/
  cp : Outcome Unit

/-- The state a run changes. -/
structure World where
  /-- The files of `PygmentsCacheDir`, by name; the latest write first. -/
  cache : List (Bytes × Bytes)
  /-- The invocations of the highlighter (language, standard input), the
  latest first. -/
  calls : List (Bytes × Bytes)
  /-- The calls `ioutil.WriteFile(path, content, 0644)` made for files under
  `BuildDir`, the latest first, with the path as it is passed. The code drops
  the error of the call, so a call need not have written its file, and the file
  system can take two paths for one file (`public//index.html` is
  `public/index.html`). No file under `BuildDir` is written without a call. -/
  written : List (Bytes × Bytes)
  /-- The names of the cache directory whose write failed, the latest first:
  the errors of `ioutil.WriteFile` that `pygmentsReplacer` dropped. -/
  dropped : List Bytes
deriving DecidableEq, Repr

/-- The cache key computed by `pygmentsReplacer`:
`strconv.Itoa(int(hasher.Sum32()))` after `hasher.Write(in)`; `int` has 64
bits, so `int(sum)` is the sum itself. -/
def cacheKey (inp : Bytes) : Bytes := Itoa (fnv32 inp : Nat)

/-- The call `ioutil.WriteFile(PygmentsCacheDir+"/"+strsum, output, 0644)` of
`pygmentsReplacer`, whose error is dropped: the name reads as what the write
leaves, and a write that leaves something else than `output` is recorded as
failed. -/
def writeCache (env : Env) (strsum output : Bytes) (w : World) : World :=
  let left := env.cacheWrite w.calls strsum output
  { w with
    cache := match left with
      | none => w.cache
      | some stored => (strsum, stored) :: w.cache,
    dropped := if left = some output then w.dropped else strsum :: w.dropped }

/-- Go `pygmentsReplacer`. A cache file that can be read is returned; else the
groups of the match are taken (`outs[1]` panics when there is no match) and
the unescaped content is written to the pipe of the standard input, before the
process is started: `inp.Write` blocks forever when the content is larger than
the pipe takes. Then the highlighter is run (`cmd.Output`; a failed run
panics, a run that never exits blocks) and its output is written to the cache
and returned. -/
def pygmentsReplacer (env : Env) (inp : Bytes) (w : World) : Outcome Bytes × World :=
  let strsum := cacheKey inp
  match w.cache.lookup strsum with
  | some source => (.ok source, w)
  | none =>
    match FindSubmatch inp with
    | none => (.stop .panic, w)
    | some (lang, content) =>
      let content := env.UnescapeString content
      if env.pipeBuffer < content.length then (.stop .hang, w)
      else
        let w1 := { w with calls := (lang, content) :: w.calls }
        match env.highlighter w.calls lang content with
        | .stop s => (.stop s, w1)
        | .ok output => (.ok output, writeCache env strsum output w1)

/-- Go `pygmentize`. -/
def pygmentize (env : Env) (buffer : Bytes) (w : World) : Outcome Bytes × World :=
  replaceAll (pygmentsReplacer env) buffer.length buffer w

/-- The front-matter split of Go `buildPost` (lines 104 to 109):
`strings.SplitN(source, "\n", 3)`, then `parts[0]`, the check of `parts[1]`
and `parts[2]`; the result is the title and the Markdown body. -/
def splitFrontMatter (source : Bytes) : Option (Bytes × Bytes) :=
  let parts := SplitN source 10 3
  match parts.get? 0 with
  | none => none
  | some title =>
    match parts.get? 1 with
    | none => none
    | some sep =>
      if sep ≠ lit "---" then none
      else
        match parts.get? 2 with
        | none => none
        | some content => some (title, content)

/-- The path `BuildDir + "/" + post.Slug + "/index.html"`. -/
def outFile (post : Post) : Bytes :=
  BuildDir ++ lit "/" ++ post.Slug ++ lit "/index.html"

/-- Go `buildPost`; the result is the post as the pointer leaves it. -/
def buildPost (env : Env) (post : Post) (w : World) : Outcome Post × World :=
  match env.ReadFile post.SourcePath with
  | none => (.stop .panic, w)
  | some source =>
    match splitFrontMatter source with
    | none => (.stop .panic, w)
    | some (title, content) =>
      let post1 := { post with Title := title, Content := env.MarkdownCommon content }
      match env.postLayout with
      | none => (.stop .panic, w)
      | some ts =>
        match pygmentize env (ts post1) w with
        | (.stop s, w1) => (.stop s, w1)
        | (.ok highlighted, w1) =>
          (.ok post1, { w1 with written := (outFile post1, highlighted) :: w1.written })

/-- Go `buildPosts`: the posts in order, until one does not return. -/
def buildPosts (env : Env) : PostSlice → World → Outcome PostSlice × World
  | [], w => (.ok [], w)
  | post :: posts, w =>
    match buildPost env post w with
    | (.stop s, w1) => (.stop s, w1)
    | (.ok post1, w1) =>
      match buildPosts env posts w1 with
      | (.stop s, w2) => (.stop s, w2)
      | (.ok posts1, w2) => (.ok (post1 :: posts1), w2)

/-- The loop of Go `loadPosts`. -/
def loadAll : List Bytes → Option PostSlice
  | [] => some []
  | file :: files =>
    match loadPost file with
    | none => none
    | some post =>
      match loadAll files with
      | none => none
      | some posts => some (post :: posts)

/-- Go `loadPosts`, from the result `dirfiles` of the `Glob`, with the
library's `sort.Sort` as `sortSort`. -/
def loadPosts (sortSort : PostSlice → PostSlice) (dirfiles : List Bytes) : Option PostSlice :=
  match loadAll dirfiles with
  | none => none
  | some posts => some (PostSlice.Sort sortSort posts)

/-- The path `BuildDir + "/index.html"`. -/
def indexFile : Bytes := BuildDir ++ lit "/index.html"

/-- Go `buildIndex`. -/
def buildIndex (env : Env) (posts : PostSlice) (w : World) : Outcome Unit × World :=
  match env.indexLayout with
  | none => (.stop .panic, w)
  | some ts => (.ok (), { w with written := (indexFile, ts posts) :: w.written })

/-- Go `copyStaticAssets`. -/
def copyStaticAssets (env : Env) (w : World) : Outcome Unit × World :=
  (env.cp, w)

/-- Go `main`. `createBuildDirectories` only makes the two directories and
ignores errors. The result is the outcome of the run, with the state reached
when it ends or stops. -/
def main (env : Env) (w : World) : Outcome Unit × World :=
  match loadPosts env.sortSort env.Glob with
  | none => (.stop .panic, w)
  | some posts =>
    match buildPosts env posts w with
    | (.stop s, w1) => (.stop s, w1)
    | (.ok posts1, w1) =>
      match buildIndex env posts1 w1 with
      | (.stop s, w2) => (.stop s, w2)
      | (.ok _, w2) => copyStaticAssets env w2

/-! ## The words of the specification -/

/-- The number of days of month `m` of year `y` in the Gregorian calendar:
thirty days for April, June, September and November, February with 28 days and
29 in a leap year (a year divisible by 4, and not by 100 unless by 400), and
31 days for the others. -/
def monthLength (y m : Nat) : Nat :=
  if m = 2 then
    if (y % 4 = 0 ∧ y % 100 ≠ 0) ∨ y % 400 = 0 then 29 else 28
  else if m = 4 ∨ m = 6 ∨ m = 9 ∨ m = 11 then 30
  else 31

/-- The decimal digit for the units of `n`, as a byte. -/
def digitByte (n : Nat) : UInt8 := UInt8.ofNat (48 + n % 10)

/-- The date of year `y`, month `m` and day `d` written as `YYYY-MM-DD`. -/
def fmtDate (y m d : Nat) : Bytes :=
  [digitByte (y / 1000), digitByte (y / 100), digitByte (y / 10), digitByte y, 45,
   digitByte (m / 10), digitByte m, 45, digitByte (d / 10), digitByte d]

/-- The text `s` is the calendar date of year `y`, month `m` and day `d`
written as `YYYY-MM-DD`. -/
def WritesDate (s : Bytes) (y m d : Nat) : Prop :=
  y ≤ 9999 ∧ 1 ≤ m ∧ m ≤ 12 ∧ 1 ≤ d ∧ d ≤ monthLength y m ∧ s = fmtDate y m d

/-- The text `s` is a valid calendar date written as `YYYY-MM-DD`. -/
def IsCalendarDate (s : Bytes) : Prop := ∃ y m d, WritesDate s y m d

/-- The second line of a text: what stands between the first line break and
the next one (or the end of the text). -/
def secondLine (s : Bytes) : Option Bytes := (s.splitOn 10).get? 1

/-- The text `sep` occurs in `s` at the byte offset `i`. -/
def OccursAt (sep s : Bytes) (i : Nat) : Prop := sep <+: s.drop i

/-- The text of a code block: `<pre><code class="`, the language tag, `">`,
the code and `</code></pre>`. -/
def blockText (lang content : Bytes) : Bytes :=
  openTag ++ lang ++ midTag ++ content ++ closeTag

/-- A code block occurs somewhere in `s`. -/
def HasBlock (s : Bytes) : Prop :=
  ∃ pre lang content post, s = pre ++ blockText lang content ++ post

/-- After the unmatched text `gap`, the block of `lang` and `content` is the
match the pattern finds in `gap ++ blockText lang content ++ rest`: the
opening literal occurs nowhere before it (leftmost) and the two groups are the
shortest possible (`">` starts nowhere inside the language tag, and
`</code></pre>` nowhere inside the code). -/
structure FirstMatch (gap lang content rest : Bytes) : Prop where
  leftmost : ∀ j, j < gap.length →
    ¬ OccursAt openTag (gap ++ blockText lang content ++ rest) j
  lazyLang : ∀ j, j < lang.length →
    ¬ OccursAt midTag (lang ++ midTag ++ content ++ closeTag ++ rest) j
  lazyContent : ∀ j, j < content.length →
    ¬ OccursAt closeTag (content ++ closeTag ++ rest) j

/-- The text `out` is the text `src` with each match replaced by the result of
`repl` on the matched text, the matches taken from left to right and the state
passed along, and every byte outside the matches kept: `src` ends in a text
without any block, kept as it is, and before it each unmatched text is kept and
followed by the replacement of the match. -/
inductive Rewritten {σ : Type} (repl : Bytes → σ → Outcome Bytes × σ) :
    Bytes → σ → Bytes → σ → Prop
  | tail (s : Bytes) (w : σ) : ¬ HasBlock s → Rewritten repl s w s w
  | block (gap lang content rest r out : Bytes) (w w1 w2 : σ) :
      FirstMatch gap lang content rest →
      repl (blockText lang content) w = (.ok r, w1) →
      Rewritten repl rest w1 out w2 →
      Rewritten repl (gap ++ blockText lang content ++ rest) w (gap ++ r ++ out) w2

/-! ## Sample runs -/

/-- A state with an empty cache, before any invocation and any write. -/
def emptyWorld : World := { cache := [], calls := [], written := [], dropped := [] }

/-- A posts directory with three posts, the one of 2023-01-02 without the
separator line; a Markdown engine and a layout that copy their input, a pipe
of 65536 bytes, a highlighter that answers with the language tag and the code
in brackets, and a cache directory whose writes succeed. -/
def sampleEnv : Env where
  Glob := [lit "posts/2023-01-01-old.md", lit "posts/2023-01-02-bad.md",
           lit "posts/2023-01-03-new.md"]
  sortSort := insertionSort
  ReadFile := fun path =>
    if path = lit "posts/2023-01-01-old.md" then
      some (lit "Old\n---\nSee <pre><code class=\"go\">x := 1</code></pre>.\n")
    else if path = lit "posts/2023-01-02-bad.md" then some (lit "Bad\n\nno separator\n")
    else if path = lit "posts/2023-01-03-new.md" then some (lit "New\n---\nplain\n")
    else none
  MarkdownCommon := fun content => content
  postLayout := some (fun post => post.Title ++ lit ": " ++ post.Content)
  indexLayout := some (fun posts => (posts.map (fun post => post.Title ++ lit "\n")).flatten)
  UnescapeString := fun content => content
  pipeBuffer := 65536
  highlighter := fun _ lang content => .ok (lit "[" ++ lang ++ lit "|" ++ content ++ lit "]")
  cacheWrite := fun _ _ output => some output
  cp := .ok ()

/-- The sample run with a pipe that takes four bytes only. -/
def smallPipeEnv : Env := { sampleEnv with pipeBuffer := 4 }

/-- A document with one code block. -/
def sampleDoc : Bytes := lit "See <pre><code class=\"go\">x := 1</code></pre>.\n"

/-! ## Lemmas on `strings` -/

theorem HasPrefix_iff (s p : Bytes) : HasPrefix s p = true ↔ p <+: s := by
  induction p generalizing s with
  | nil => simp [HasPrefix]
  | cons d p ih =>
    cases s with
    | nil => simp [HasPrefix]
    | cons c s =>
      simp only [HasPrefix, Bool.and_eq_true, beq_iff_eq, ih, List.cons_prefix_cons]
      constructor
      · rintro ⟨h1, h2⟩; exact ⟨h1.symm, h2⟩
      · rintro ⟨h1, h2⟩; exact ⟨h1.symm, h2⟩

/-- `Index` returns the first offset at which `sep` occurs. -/
theorem Index_some (s sep : Bytes) (i : Nat) (h : Index s sep = some i) :
    sep <+: s.drop i ∧ i ≤ s.length ∧ ∀ j, j < i → ¬ sep <+: s.drop j := by
  induction s generalizing i with
  | nil =>
    simp only [Index] at h
    split at h
    · rename_i hp
      cases h
      exact ⟨(HasPrefix_iff _ _).1 hp, le_refl _, fun j hj => absurd hj (Nat.not_lt_zero j)⟩
    · cases h
  | cons c s ih =>
    simp only [Index] at h
    split at h
    · rename_i hp
      cases h
      exact ⟨(HasPrefix_iff _ _).1 hp, Nat.zero_le _, fun j hj => absurd hj (Nat.not_lt_zero j)⟩
    · rename_i hp
      cases hi : Index s sep with
      | none => simp [hi] at h
      | some k =>
        simp only [hi, Option.map_some', Option.some.injEq] at h
        subst h
        obtain ⟨h1, h2, h3⟩ := ih k hi
        refine ⟨by simpa using h1, by simpa using h2, ?_⟩
        intro j hj
        cases j with
        | zero => simpa [HasPrefix_iff] using hp
        | succ j => simpa using h3 j (by omega)

theorem Index_none (s sep : Bytes) (h : Index s sep = none) (j : Nat) :
    ¬ sep <+: s.drop j := by
  induction s generalizing j with
  | nil =>
    simp only [Index] at h
    split at h
    · cases h
    · rename_i hp
      simpa [HasPrefix_iff] using hp
  | cons c s ih =>
    simp only [Index] at h
    split at h
    · cases h
    · rename_i hp
      cases hi : Index s sep with
      | some k => simp [hi] at h
      | none =>
        cases j with
        | zero => simpa [HasPrefix_iff] using hp
        | succ j => simpa using ih hi j

/-- The converse: an occurrence with none before it is the one `Index` returns. -/
theorem Index_eq_some (s sep : Bytes) (i : Nat) (h1 : sep <+: s.drop i)
    (h3 : ∀ j, j < i → ¬ sep <+: s.drop j) : Index s sep = some i := by
  cases hi : Index s sep with
  | none => exact absurd h1 (Index_none s sep hi i)
  | some k =>
    obtain ⟨k1, _, k3⟩ := Index_some s sep k hi
    rcases Nat.lt_trichotomy k i with hlt | heq | hgt
    · exact absurd k1 (h3 k hlt)
    · rw [heq]
    · exact absurd h1 (k3 i hgt)

/-- The text cut at an occurrence. -/
theorem drop_of_prefix (s sep : Bytes) (i : Nat) (h : sep <+: s.drop i) :
    s = s.take i ++ sep ++ s.drop (i + sep.length) := by
  obtain ⟨t, ht⟩ := h
  have h2 : s.drop (i + sep.length) = t := by
    rw [← List.drop_drop, ← ht]; simp
  rw [h2, List.append_assoc, ht, List.take_append_drop]

theorem Index_byte_append (a b : Bytes) (c : UInt8) (h : c ∉ a) :
    Index (a ++ c :: b) [c] = some a.length := by
  induction a with
  | nil => simp [Index, HasPrefix]
  | cons x a ih =>
    have hx : ¬ x = c := fun e => h (by simp [e])
    have ha : c ∉ a := fun e => h (List.mem_cons_of_mem _ e)
    simp [Index, HasPrefix, hx, ih ha]

theorem Index_byte_some (s : Bytes) (c : UInt8) (m : Nat) (h : Index s [c] = some m) :
    s = s.take m ++ c :: s.drop (m + 1) ∧ c ∉ s.take m := by
  induction s generalizing m with
  | nil => simp [Index, HasPrefix] at h
  | cons x s ih =>
    simp only [Index, HasPrefix, Bool.and_true, beq_iff_eq] at h
    split at h
    · rename_i hx
      cases h
      simp [hx]
    · rename_i hx
      cases hi : Index s [c] with
      | none => simp [hi] at h
      | some k =>
        simp only [hi, Option.map_some', Option.some.injEq] at h
        subst h
        obtain ⟨h1, h2⟩ := ih k hi
        refine ⟨by simpa using h1, ?_⟩
        simp only [List.take_succ_cons, List.mem_cons, not_or]
        exact ⟨fun e => hx e.symm, h2⟩

theorem lit_sep : lit "---" = [45, 45, 45] := by decide

/-- The front-matter split succeeds exactly on a title free of line breaks, a
line break, `---`, a line break and a body; it returns the title and the
body. -/
theorem splitFrontMatter_spec (source title body : Bytes) :
    splitFrontMatter source = some (title, body)
      ↔ (10 ∉ title ∧ source = title ++ 10 :: (lit "---" ++ 10 :: body)) := by
  constructor
  · intro h
    unfold splitFrontMatter SplitN at h
    have hn : min 3 (source.length + 1) - 1 = 0 ∨ min 3 (source.length + 1) - 1 = 1
        ∨ min 3 (source.length + 1) - 1 = 2 := by omega
    rcases hn with hn | hn | hn
    · rw [hn] at h; simp [splitLoop] at h
    · rw [hn] at h
      simp only [splitLoop] at h
      cases hi : Index source [10] with
      | none => simp [hi] at h
      | some m => simp [hi] at h
    · rw [hn] at h
      simp only [splitLoop] at h
      cases hi : Index source [10] with
      | none => simp [hi] at h
      | some m =>
        cases hk : Index (source.drop (m + 1)) [10] with
        | none => simp [hi, hk] at h
        | some k =>
          simp only [hi, hk, List.get?_cons_zero, List.get?_cons_succ] at h
          split at h
          · cases h
          · rename_i hsep
            simp only [ne_eq, not_not] at hsep
            simp only [Option.some.injEq, Prod.mk.injEq] at h
            obtain ⟨m1, m2⟩ := Index_byte_some _ _ _ hi
            obtain ⟨k1, _⟩ := Index_byte_some _ _ _ hk
            rw [hsep, h.2] at k1
            rw [k1, h.1] at m1
            rw [h.1] at m2
            exact ⟨m2, m1⟩
  · rintro ⟨ht, hs⟩
    have hlen : min 3 (source.length + 1) - 1 = 2 := by
      rw [hs]; simp only [List.length_append, List.length_cons]; omega
    have h1 : Index source [10] = some title.length := by
      rw [hs]; exact Index_byte_append _ _ _ ht
    have h2 : source.drop (title.length + 1) = lit "---" ++ 10 :: body := by
      rw [hs]; simp
    have h3 : Index (lit "---" ++ 10 :: body) [10] = some 3 :=
      Index_byte_append (lit "---") body 10 (by decide)
    unfold splitFrontMatter SplitN
    rw [hlen]
    simp only [splitLoop, h1, h2, h3, List.get?_cons_zero, List.get?_cons_succ]
    have h4 : (lit "---" ++ 10 :: body).take 3 = lit "---" := by simp [lit_sep]
    have h5 : (lit "---" ++ 10 :: body).drop (3 + 1) = body := by simp [lit_sep]
    have h6 : source.take title.length = title := by rw [hs]; simp
    rw [h4, h5, h6]
    simp

/-! ## Lemmas on `time` -/

/-- A byte that is a decimal digit. -/
theorem isDigit_cons (c : UInt8) (s : Bytes) :
    isDigit (c :: s) 0 = true ↔ (48 ≤ c.toNat ∧ c.toNat ≤ 57) := by
  simp [isDigit]

theorem ofNat_toNat (c : UInt8) : UInt8.ofNat c.toNat = c := by
  apply UInt8.ext
  have := UInt8.toNat_lt c
  show c.toNat % 256 = c.toNat
  omega

theorem digitByte_toNat (n : Nat) : (digitByte n).toNat = 48 + n % 10 := by
  show (48 + n % 10) % 256 = 48 + n % 10
  omega

theorem digitByte_eq (c : UInt8) (n : Nat) (h1 : 48 ≤ c.toNat) (h2 : c.toNat ≤ 57)
    (hn : n % 10 = c.toNat - 48) : digitByte n = c := by
  apply UInt8.ext
  rw [digitByte_toNat]; omega

theorem getnum_fixed (s rest : Bytes) (n : Nat) :
    getnum s true = some (n, rest) ↔
      ∃ x y, s = x :: y :: rest ∧ 48 ≤ x.toNat ∧ x.toNat ≤ 57 ∧ 48 ≤ y.toNat ∧ y.toNat ≤ 57
        ∧ n = (x.toNat - 48) * 10 + (y.toNat - 48) := by
  rcases s with _ | ⟨x, _ | ⟨y, r⟩⟩
  · simp [getnum, isDigit]
  · simp [getnum, isDigit]
  · simp only [getnum, isDigit, digitAt, List.get?_cons_zero, List.get?_cons_succ]
    constructor
    · intro h
      split at h
      · cases h
      · split at h
        · cases h
        · rename_i h1 h2
          simp at h1 h2
          simp only [List.drop_succ_cons, List.drop_zero, Option.some.injEq, Prod.mk.injEq] at h
          exact ⟨x, y, by rw [h.2], h1.1, h1.2, h2.1, h2.2, h.1.symm⟩
    · rintro ⟨x', y', hs, h1, h2, h3, h4, hn⟩
      simp only [List.cons.injEq] at hs
      obtain ⟨rfl, rfl, rfl⟩ := hs
      simp [h1, h2, h3, h4, hn]

theorem skipHyphen_iff (s rest : Bytes) : skipHyphen s = some rest ↔ s = 45 :: rest := by
  cases s with
  | nil => simp [skipHyphen]
  | cons c s =>
    simp only [skipHyphen]
    by_cases hc : c = 45
    · simp [hc]
    · simp [hc]

theorem leadingInt_digit (c : UInt8) (s : Bytes) (x : Nat) (h1 : 48 ≤ c.toNat)
    (h2 : c.toNat ≤ 57) (hx : x ≤ 1000000) :
    leadingInt (c :: s) x = leadingInt s (x * 10 + (c.toNat - 48)) := by
  have e1 : ¬ (c.toNat < 48 ∨ c.toNat > 57) := by omega
  have e2 : ¬ (x > 2 ^ 63 / 10) := by norm_num; omega
  have e3 : ¬ (x * 10 + (c.toNat - 48) > 2 ^ 63) := by norm_num; omega
  simp only [leadingInt, Bool.or_eq_true, decide_eq_true_eq, e1, e2, e3, if_false]

theorem leadingInt_other (c : UInt8) (s : Bytes) (x : Nat) (h : c.toNat < 48 ∨ c.toNat > 57) :
    leadingInt (c :: s) x = some (x, c :: s) := by
  simp only [leadingInt, Bool.or_eq_true, decide_eq_true_eq, h, if_true]

theorem atoi_four (a b c d : UInt8) (ha1 : 48 ≤ a.toNat) (ha2 : a.toNat ≤ 57) (y : Int) :
    atoi [a, b, c, d] = some y ↔
      (48 ≤ b.toNat ∧ b.toNat ≤ 57 ∧ 48 ≤ c.toNat ∧ c.toNat ≤ 57 ∧ 48 ≤ d.toNat ∧ d.toNat ≤ 57
        ∧ y = ((a.toNat - 48) * 1000 + (b.toNat - 48) * 100 + (c.toNat - 48) * 10
                + (d.toNat - 48) : Nat)) := by
  have h45 : ¬ a = 45 := fun e => by rw [e] at ha1; revert ha1; decide
  have h43 : ¬ a = 43 := fun e => by rw [e] at ha1; revert ha1; decide
  have hp : (some a == some (43 : UInt8)) = false := by simp [h43]
  have hn : (some a == some (45 : UInt8)) = false := by simp [h45]
  simp only [atoi, List.head?_cons, hp, hn, Bool.or_self, Bool.false_eq_true, if_false]
  rw [leadingInt_digit a _ 0 ha1 ha2 (by omega)]
  by_cases hb : b.toNat < 48 ∨ b.toNat > 57
  · rw [leadingInt_other b _ _ hb]
    simp only [ne_eq, reduceCtorEq, not_false_eq_true, if_true, false_iff]
    omega
  rw [leadingInt_digit b _ _ (by omega) (by omega) (by omega)]
  by_cases hc : c.toNat < 48 ∨ c.toNat > 57
  · rw [leadingInt_other c _ _ hc]
    simp only [ne_eq, reduceCtorEq, not_false_eq_true, if_true, false_iff]
    omega
  rw [leadingInt_digit c _ _ (by omega) (by omega) (by omega)]
  by_cases hd : d.toNat < 48 ∨ d.toNat > 57
  · rw [leadingInt_other d _ _ hd]
    simp only [ne_eq, reduceCtorEq, not_false_eq_true, if_true, false_iff]
    omega
  rw [leadingInt_digit d _ _ (by omega) (by omega) (by omega)]
  simp only [leadingInt, ne_eq, not_true_eq_false, if_false, Option.some.injEq]
  constructor
  · intro h
    refine ⟨by omega, by omega, by omega, by omega, by omega, by omega, ?_⟩
    rw [← h]; congr 1; omega
  · rintro ⟨_, _, _, _, _, _, h⟩
    rw [h]; congr 1; omega

theorem isLeap_nat (y : Nat) :
    isLeap (y : Int) = true ↔ ((y % 4 = 0 ∧ y % 100 ≠ 0) ∨ y % 400 = 0) := by
  simp only [isLeap, Bool.and_eq_true, Bool.or_eq_true, beq_iff_eq, bne_iff_ne, ne_eq]
  omega

theorem daysIn_eq (y m : Nat) (h1 : 1 ≤ m) (h2 : m ≤ 12) :
    daysIn m (y : Int) = (monthLength y m : Int) := by
  by_cases hm : m = 2
  · subst hm
    by_cases hl : isLeap (y : Int) = true
    · have hl2 := (isLeap_nat y).1 hl
      simp [daysIn, monthLength, hl, hl2]
    · have hl2 : ¬ ((y % 4 = 0 ∧ y % 100 ≠ 0) ∨ y % 400 = 0) := fun e => hl ((isLeap_nat y).2 e)
      simp only [monthLength, if_true, if_neg hl2]
      simp [daysIn, hl, daysBefore]
  · interval_cases m <;> simp [daysIn, monthLength, daysBefore] at hm ⊢

/-- The parser accepts exactly the valid calendar dates written as `YYYY-MM-DD`
and returns midnight UTC of that date. -/
theorem Parse_iff (v : Bytes) (t : Time) :
    Parse v = some t ↔ ∃ y m d, WritesDate v y m d ∧ t = Date (y : Int) m d 0 0 0 0 := by
  constructor
  · intro h
    unfold Parse at h
    split at h
    · cases h
    rename_i h0
    simp only [Bool.or_eq_true, decide_eq_true_eq, Bool.not_eq_true', not_or, not_lt,
      Bool.not_eq_false] at h0
    rcases v with _ | ⟨a, _ | ⟨b, _ | ⟨c, _ | ⟨d, rest⟩⟩⟩⟩
    · simp at h0
    · simp at h0
    · simp at h0
    · simp at h0
    obtain ⟨ha1, ha2⟩ := (isDigit_cons a _).1 h0.2
    simp only [List.take_succ_cons, List.take_zero, List.drop_succ_cons, List.drop_zero] at h
    cases hy : atoi [a, b, c, d] with
    | none => simp [hy] at h
    | some year =>
    cases hs1 : skipHyphen rest with
    | none => simp [hy, hs1] at h
    | some v1 =>
    cases hm : getnum v1 true with
    | none => simp [hy, hs1, hm] at h
    | some mr =>
    obtain ⟨month, v2⟩ := mr
    simp only [hy, hs1, hm] at h
    split at h
    · cases h
    rename_i hmonth
    cases hs2 : skipHyphen v2 with
    | none => simp [hs2] at h
    | some v3 =>
    cases hd : getnum v3 true with
    | none => simp [hs2, hd] at h
    | some dr =>
    obtain ⟨day, v4⟩ := dr
    simp only [hs2, hd] at h
    split at h
    · cases h
    rename_i hv4
    split at h
    · cases h
    rename_i hday
    simp only [ne_eq, not_not] at hv4
    subst hv4
    simp only [Option.some.injEq] at h
    obtain ⟨hb1, hb2, hc1, hc2, hd1, hd2, hyear⟩ := (atoi_four a b c d ha1 ha2 year).1 hy
    rw [skipHyphen_iff] at hs1 hs2
    obtain ⟨m1, m2, hv1, hm1, hm2, hm3, hm4, hmv⟩ := (getnum_fixed _ _ _).1 hm
    obtain ⟨d1, d2, hv3, hd3, hd4, hd5, hd6, hdv⟩ := (getnum_fixed _ _ _).1 hd
    simp only [Bool.or_eq_true, decide_eq_true_eq, not_or, not_le, not_lt] at hmonth hday
    subst hyear
    have hdi := daysIn_eq ((a.toNat - 48) * 1000 + (b.toNat - 48) * 100 + (c.toNat - 48) * 10
                + (d.toNat - 48)) month (by omega) hmonth.2
    refine ⟨_, month, day, ⟨by omega, by omega, hmonth.2, by omega, ?_, ?_⟩, h.symm⟩
    · rw [hdi] at hday; omega
    · subst hs1 hv1 hs2 hv3
      simp only [fmtDate, List.cons.injEq, and_true, true_and]
      refine ⟨?_, ?_, ?_, ?_, ?_, ?_, ?_, ?_⟩ <;>
        exact (digitByte_eq _ _ (by assumption) (by assumption) (by omega)).symm
  · rintro ⟨y, m, d, ⟨hy, hm1, hm2, hd1, hd2, hv⟩, ht⟩
    subst hv ht
    have hdi := daysIn_eq y m hm1 hm2
    have hyear : atoi [digitByte (y / 1000), digitByte (y / 100), digitByte (y / 10), digitByte y]
        = some (y : Int) := by
      rw [atoi_four _ _ _ _ (by rw [digitByte_toNat]; omega) (by rw [digitByte_toNat]; omega)]
      simp only [digitByte_toNat]
      refine ⟨by omega, by omega, by omega, by omega, by omega, by omega, ?_⟩
      congr 1; omega
    have hmonth : getnum [digitByte (m / 10), digitByte m, 45, digitByte (d / 10), digitByte d] true
        = some (m, [45, digitByte (d / 10), digitByte d]) := by
      rw [getnum_fixed]
      refine ⟨_, _, rfl, ?_⟩
      simp only [digitByte_toNat]
      omega
    have hd3 : d ≤ 31 := by
      have : monthLength y m ≤ 31 := by unfold monthLength; split_ifs <;> omega
      omega
    have hday : getnum [digitByte (d / 10), digitByte d] true = some (d, []) := by
      rw [getnum_fixed]
      refine ⟨_, _, rfl, ?_⟩
      simp only [digitByte_toNat]
      omega
    have h0 : ∀ s, isDigit (digitByte (y / 1000) :: s) 0 = true := by
      intro s
      rw [isDigit_cons, digitByte_toNat]; omega
    have hm3 : ¬ (m ≤ 0 ∨ 12 < m) := by omega
    have hd4 : ¬ ((d : Int) < 1 ∨ (d : Int) > daysIn m (y : Int)) := by rw [hdi]; omega
    unfold Parse
    simp only [h0, fmtDate, List.length_cons, List.length_nil, List.take_succ_cons, List.take_zero,
      List.drop_succ_cons, List.drop_zero, hyear, skipHyphen]
    have hm5 : ¬ (m = 0 ∨ 12 < m) := by omega
    have hd5 : ¬ (d = 0 ∨ daysIn m (y : Int) < (d : Int)) := by rw [hdi]; omega
    simp [hmonth, hday, hm5, hd5]

/-- The days from 0001-01-01 to the day `d` of month `m` of year `y`, as `Date`
counts them. -/
theorem Date_Unix (y : Int) (m d : Nat) :
    (Date y m d 0 0 0 0).Unix
      = (daysBeforeYear y + daysBefore.getD (m - 1) 0
          + (if isLeap y && decide (3 ≤ m) then 1 else 0) + ((d : Int) - 1) - 719162) * 86400 := by
  simp [Date, Time.Unix]

theorem daysBeforeYear_succ (y : Int) :
    daysBeforeYear (y + 1) = daysBeforeYear y + (if isLeap y then 366 else 365) := by
  unfold daysBeforeYear isLeap
  by_cases h4 : y % 4 = 0 <;> by_cases h100 : y % 100 = 0 <;> by_cases h400 : y % 400 = 0 <;>
    simp [h4, h100, h400] <;> omega

theorem daysBeforeYear_mono (y : Int) (k : Nat) :
    daysBeforeYear y + 365 * k ≤ daysBeforeYear (y + k) := by
  induction k with
  | zero => simp
  | succ k ih =>
    have := daysBeforeYear_succ (y + k)
    have e : y + ((k + 1 : Nat) : Int) = y + k + 1 := by push_cast; ring
    rw [e, this]
    split <;> push_cast <;> omega

/-- The day of the year, counted from 0, of a valid date is below the length of
the year. -/
theorem dayOfYear_bounds (y m d : Nat) (hm1 : 1 ≤ m) (hm2 : m ≤ 12) (hd1 : 1 ≤ d)
    (hd2 : d ≤ monthLength y m) :
    0 ≤ daysBefore.getD (m - 1) 0 + (if isLeap (y : Int) && decide (3 ≤ m) then 1 else 0)
        + ((d : Int) - 1)
      ∧ daysBefore.getD (m - 1) 0 + (if isLeap (y : Int) && decide (3 ≤ m) then 1 else 0)
        + ((d : Int) - 1) < (if isLeap (y : Int) then 366 else 365) := by
  have hl := isLeap_nat y
  by_cases hleap : isLeap (y : Int) = true
  · have h2 := hl.1 hleap
    interval_cases m <;> simp [daysBefore, monthLength, hleap, h2] at hd2 ⊢ <;> omega
  · have h2 : ¬ ((y % 4 = 0 ∧ y % 100 ≠ 0) ∨ y % 400 = 0) := fun e => hleap (hl.2 e)
    simp only [Bool.not_eq_true] at hleap
    interval_cases m <;> simp [daysBefore, monthLength, hleap, h2] at hd2 ⊢ <;> omega

/-- Within a year, the days before a month and the days of that month come
before every later month. -/
theorem month_before (y m m2 : Nat) (hm1 : 1 ≤ m) (hm : m < m2) (hm2 : m2 ≤ 12) :
    daysBefore.getD (m - 1) 0 + (if isLeap (y : Int) && decide (3 ≤ m) then 1 else 0)
        + (monthLength y m : Int)
      ≤ daysBefore.getD (m2 - 1) 0 + (if isLeap (y : Int) && decide (3 ≤ m2) then 1 else 0) := by
  have hl := isLeap_nat y
  have hm3 : m ≤ 11 := by omega
  by_cases hleap : isLeap (y : Int) = true
  · have h2 := hl.1 hleap
    interval_cases m <;> interval_cases m2 <;>
      simp [daysBefore, monthLength, hleap, h2]
  · have h2 : ¬ ((y % 4 = 0 ∧ y % 100 ≠ 0) ∨ y % 400 = 0) := fun e => hleap (hl.2 e)
    simp only [Bool.not_eq_true] at hleap
    interval_cases m <;> interval_cases m2 <;>
      simp [daysBefore, monthLength, hleap, h2]

/-- The Unix time of `Date` follows the calendar: of two valid dates, the
earlier one has the smaller Unix time. -/
theorem Date_lt_of_earlier (y m d y2 m2 d2 : Nat)
    (hm1 : 1 ≤ m) (hm2 : m ≤ 12) (hd1 : 1 ≤ d) (hd2 : d ≤ monthLength y m)
    (hn1 : 1 ≤ m2) (hn2 : m2 ≤ 12) (he1 : 1 ≤ d2) (he2 : d2 ≤ monthLength y2 m2)
    (h : y < y2 ∨ (y = y2 ∧ (m < m2 ∨ (m = m2 ∧ d < d2)))) :
    (Date (y : Int) m d 0 0 0 0).Unix < (Date (y2 : Int) m2 d2 0 0 0 0).Unix := by
  rw [Date_Unix, Date_Unix]
  have b1 := dayOfYear_bounds y m d hm1 hm2 hd1 hd2
  have b2 := dayOfYear_bounds y2 m2 d2 hn1 hn2 he1 he2
  rcases h with h | ⟨rfl, h | ⟨rfl, h⟩⟩
  · have s := daysBeforeYear_succ (y : Int)
    have mono := daysBeforeYear_mono ((y : Int) + 1) (y2 - (y + 1))
    have e : (y : Int) + 1 + ((y2 - (y + 1) : Nat) : Int) = (y2 : Int) := by omega
    rw [e] at mono
    have : (0 : Int) ≤ 365 * ((y2 - (y + 1) : Nat) : Int) := by positivity
    omega
  · have := month_before y m m2 hm1 h hn2
    omega
  · omega

/-- Two valid dates with the same `Date` are the same date. -/
theorem Date_inj (y m d y2 m2 d2 : Nat)
    (hm1 : 1 ≤ m) (hm2 : m ≤ 12) (hd1 : 1 ≤ d) (hd2 : d ≤ monthLength y m)
    (hn1 : 1 ≤ m2) (hn2 : m2 ≤ 12) (he1 : 1 ≤ d2) (he2 : d2 ≤ monthLength y2 m2)
    (h : Date (y : Int) m d 0 0 0 0 = Date (y2 : Int) m2 d2 0 0 0 0) :
    y = y2 ∧ m = m2 ∧ d = d2 := by
  have hu : (Date (y : Int) m d 0 0 0 0).Unix = (Date (y2 : Int) m2 d2 0 0 0 0).Unix := by rw [h]
  by_contra hne
  have hcases : (y < y2 ∨ (y = y2 ∧ (m < m2 ∨ (m = m2 ∧ d < d2))))
      ∨ (y2 < y ∨ (y2 = y ∧ (m2 < m ∨ (m2 = m ∧ d2 < d)))) := by omega
  rcases hcases with hc | hc
  · have := Date_lt_of_earlier y m d y2 m2 d2 hm1 hm2 hd1 hd2 hn1 hn2 he1 he2 hc
    omega
  · have := Date_lt_of_earlier y2 m2 d2 y m d hn1 hn2 he1 he2 hm1 hm2 hd1 hd2 hc
    omega

/-! ## `loadPost` -/

theorem lit_md : lit ".md" = [46, 109, 100] := by decide

theorem WritesDate_length (s : Bytes) (y m d : Nat) (h : WritesDate s y m d) : s.length = 10 := by
  rw [h.2.2.2.2.2]; rfl

/-- Removing the first `.md` of `slug.md` gives `slug` when `slug` holds no
`.md`. -/
theorem Replace1_ext (slug : Bytes) (h : ¬ lit ".md" <:+: slug) :
    Replace1 (slug ++ lit ".md") (lit ".md") [] = slug := by
  have hi : Index (slug ++ lit ".md") (lit ".md") = some slug.length := by
    apply Index_eq_some
    · simp
    · intro j hj hp
      rw [List.drop_append_of_le_length (le_of_lt hj)] at hp
      have hsuf : slug.drop j <:+ slug := List.drop_suffix j slug
      have hlen : 0 < (slug.drop j).length := by simp; omega
      rcases hd : slug.drop j with _ | ⟨x, _ | ⟨y, _ | ⟨z, t⟩⟩⟩
      · rw [hd] at hlen; simp at hlen
      · rw [hd, lit_md] at hp
        simp [List.cons_prefix_cons] at hp
      · rw [hd, lit_md] at hp
        simp [List.cons_prefix_cons] at hp
      · rw [hd, lit_md] at hp
        apply h
        rw [lit_md]
        have h3 : [46, 109, 100] <+: x :: y :: z :: t := by
          simp only [List.cons_append, List.cons_prefix_cons] at hp ⊢
          exact ⟨hp.1, hp.2.1, hp.2.2.1, List.nil_prefix⟩
        rw [← hd] at h3
        exact List.IsInfix.trans h3.isInfix hsuf.isInfix
  unfold Replace1
  rw [hi]
  simp

/-- What `loadPost` does on a base name of at least 11 bytes: the date is
parsed from the first ten, and the slug is what follows the eleventh byte
without its first `.md`. -/
theorem loadPost_eq (path : Bytes) (h : 11 ≤ (Base path).length) :
    loadPost path =
      match Parse ((Base path).take 10) with
      | none => none
      | some date =>
        some { Content := [], Slug := Replace1 ((Base path).drop 11) (lit ".md") [],
               SourcePath := path, Title := [],
               Url := lit "/" ++ Replace1 ((Base path).drop 11) (lit ".md") [], Date := date } := by
  unfold loadPost slice sliceFrom
  have h1 : (0 ≤ 10 ∧ 10 ≤ (Base path).length) := by omega
  simp only [h1, and_self, if_true, h, List.drop_zero]

theorem Date_midnight (y : Int) (m d : Nat) :
    (Date y m d 0 0 0 0).Unix % 86400 = 0 ∧ (Date y m d 0 0 0 0).nsec = 0 := by
  simp [Date, Time.Unix]

/-- C6: on a base name of at least 11 bytes, `loadPost` fails exactly when the
first ten bytes are not a valid calendar date written as `YYYY-MM-DD`; when it
succeeds, the date of the post is that calendar date at midnight UTC (a whole
number of days, no nanoseconds), and it is the `Date` of no other valid
calendar date. -/
theorem loadPost_date (path : Bytes) (h : 11 ≤ (Base path).length) :
    (loadPost path = none ↔ ¬ IsCalendarDate ((Base path).take 10))
      ∧ ∀ post, loadPost path = some post →
          ∃ y m d, WritesDate ((Base path).take 10) y m d
            ∧ post.Date = Date (y : Int) m d 0 0 0 0
            ∧ post.Date.Unix % 86400 = 0 ∧ post.Date.nsec = 0
            ∧ ∀ y2 m2 d2, 1 ≤ m2 → m2 ≤ 12 → 1 ≤ d2 → d2 ≤ monthLength y2 m2 →
                post.Date = Date (y2 : Int) m2 d2 0 0 0 0 → y2 = y ∧ m2 = m ∧ d2 = d := by
  rw [loadPost_eq path h]
  constructor
  · cases hp : Parse ((Base path).take 10) with
    | none =>
      simp only [true_iff]
      rintro ⟨y, m, d, hw⟩
      have := (Parse_iff _ (Date (y : Int) m d 0 0 0 0)).2 ⟨y, m, d, hw, rfl⟩
      rw [hp] at this
      cases this
    | some t =>
      obtain ⟨y, m, d, hw, _⟩ := (Parse_iff _ t).1 hp
      simp only [reduceCtorEq, false_iff, not_not]
      exact ⟨y, m, d, hw⟩
  · intro post hpost
    cases hp : Parse ((Base path).take 10) with
    | none => rw [hp] at hpost; cases hpost
    | some t =>
      rw [hp] at hpost
      obtain ⟨y, m, d, hw, ht⟩ := (Parse_iff _ t).1 hp
      simp only [Option.some.injEq] at hpost
      subst hpost
      subst ht
      refine ⟨y, m, d, hw, rfl, (Date_midnight _ _ _).1, (Date_midnight _ _ _).2, ?_⟩
      intro y2 m2 d2 h1 h2 h3 h4 he
      obtain ⟨_, hm1, hm2, hd1, hd2, _⟩ := hw
      exact Date_inj y2 m2 d2 y m d h1 h2 h3 h4 hm1 hm2 hd1 hd2 he.symm

/-- C6 on `posts/2023-05-01-hello.md`. -/
theorem loadPost_date_witness :
    11 ≤ (Base (lit "posts/2023-05-01-hello.md")).length
      ∧ (loadPost (lit "posts/2023-05-01-hello.md") = none
          ↔ ¬ IsCalendarDate ((Base (lit "posts/2023-05-01-hello.md")).take 10)) :=
  ⟨by decide, (loadPost_date (lit "posts/2023-05-01-hello.md") (by decide)).1⟩

/-- The slug of a well-named post whose name holds no `.md` before the
extension. -/
theorem loadPost_slug (path date slug : Bytes) (sep : UInt8)
    (hbase : Base path = date ++ sep :: (slug ++ lit ".md"))
    (hdate : IsCalendarDate date)
    (hslug : ¬ lit ".md" <:+: slug) :
    ∃ post, loadPost path = some post ∧ post.Slug = slug ∧ post.Url = lit "/" ++ slug
      ∧ post.SourcePath = path := by
  obtain ⟨y, m, d, hw⟩ := hdate
  have hlen := WritesDate_length _ _ _ _ hw
  have h11 : 11 ≤ (Base path).length := by
    rw [hbase]; simp only [List.length_append, List.length_cons]; omega
  have htake : (Base path).take 10 = date := by
    rw [hbase, ← hlen]; simp
  have hdrop : (Base path).drop 11 = slug ++ lit ".md" := by
    rw [hbase, show 11 = date.length + 1 by omega]
    simp
  have hp := (Parse_iff date (Date (y : Int) m d 0 0 0 0)).2 ⟨y, m, d, hw, rfl⟩
  rw [loadPost_eq path h11, htake, hdrop, hp, Replace1_ext slug hslug]
  exact ⟨_, rfl, rfl, rfl, rfl⟩

/-- C2 at `posts/2023-05-01-intro.mdx.md`: the base name is the date
`2023-05-01`, a hyphen, the name `intro.mdx` and the extension `.md`, and the
slug of the post is `introx.md`, not `intro.mdx`. -/
theorem loadPost_slug_holding_md :
    Base (lit "posts/2023-05-01-intro.mdx.md")
        = lit "2023-05-01" ++ 45 :: (lit "intro.mdx" ++ lit ".md")
      ∧ IsCalendarDate (lit "2023-05-01")
      ∧ (loadPost (lit "posts/2023-05-01-intro.mdx.md")).map (fun p => (p.Slug, p.Url))
          = some (lit "introx.md", lit "/introx.md")
      ∧ lit "introx.md" ≠ lit "intro.mdx" := by
  refine ⟨by decide, ⟨2023, 5, 1, by decide, by decide, by decide, by decide, by decide, by decide⟩,
    by decide, by decide⟩

/-! ## The cache key -/

theorem fnvStep_lt (h : Nat) (c : UInt8) : fnvStep h c < 2 ^ 32 := by
  unfold fnvStep
  apply Nat.xor_lt_two_pow
  · exact Nat.mod_lt _ (by norm_num)
  · have := UInt8.toNat_lt c
    omega

theorem mul_prime_cancel (x : Nat) :
    (x * prime32 % 2 ^ 32) * 899433627 ≡ x [MOD 2 ^ 32] := by
  have h1 : prime32 * 899433627 ≡ 1 [MOD 2 ^ 32] := by decide
  have h2 : x * prime32 % 2 ^ 32 ≡ x * prime32 [MOD 2 ^ 32] := Nat.mod_modEq _ _
  calc (x * prime32 % 2 ^ 32) * 899433627
      ≡ x * prime32 * 899433627 [MOD 2 ^ 32] := Nat.ModEq.mul_right _ h2
    _ = x * (prime32 * 899433627) := Nat.mul_assoc _ _ _
    _ ≡ x * 1 [MOD 2 ^ 32] := Nat.ModEq.mul_left _ h1
    _ = x := Nat.mul_one x

theorem mul_prime_inj (a b : Nat) (ha : a < 2 ^ 32) (hb : b < 2 ^ 32)
    (h : a * prime32 % 2 ^ 32 = b * prime32 % 2 ^ 32) : a = b := by
  have h1 := mul_prime_cancel a
  have h2 := mul_prime_cancel b
  rw [h] at h1
  have h3 : a ≡ b [MOD 2 ^ 32] := h1.symm.trans h2
  unfold Nat.ModEq at h3
  rwa [Nat.mod_eq_of_lt ha, Nat.mod_eq_of_lt hb] at h3

theorem fnvStep_inj (a b : Nat) (c : UInt8) (ha : a < 2 ^ 32) (hb : b < 2 ^ 32)
    (h : fnvStep a c = fnvStep b c) : a = b := by
  unfold fnvStep at h
  exact mul_prime_inj a b ha hb (Nat.xor_left_injective h)

theorem foldl_fnvStep_lt (s : Bytes) (h : Nat) (hh : h < 2 ^ 32) :
    s.foldl fnvStep h < 2 ^ 32 := by
  induction s generalizing h with
  | nil => exact hh
  | cons c s ih => exact ih _ (fnvStep_lt h c)

theorem fnv32_lt (s : Bytes) : fnv32 s < 2 ^ 32 :=
  foldl_fnvStep_lt s offset32 (by decide)

theorem foldl_fnvStep_inj (s : Bytes) (a b : Nat) (ha : a < 2 ^ 32) (hb : b < 2 ^ 32)
    (h : s.foldl fnvStep a = s.foldl fnvStep b) : a = b := by
  induction s generalizing a b with
  | nil => exact h
  | cons c s ih =>
    exact fnvStep_inj a b c ha hb (ih _ _ (fnvStep_lt a c) (fnvStep_lt b c) h)

theorem fnv32_append (a b : Bytes) : fnv32 (a ++ b) = b.foldl fnvStep (fnv32 a) := by
  simp [fnv32, List.foldl_append]

/-- The number written by decimal digits, least significant first. -/
theorem digitsRev_value (k n : Nat) (h : n < 10 ^ (k + 1)) :
    (digitsRev k n).foldr (fun c acc => (c.toNat - 48) + 10 * acc) 0 = n := by
  induction k generalizing n with
  | zero =>
    have e := digitByte_toNat n
    unfold digitByte at e
    simp only [digitsRev, List.foldr_cons, List.foldr_nil, e]
    omega
  | succ k ih =>
    unfold digitsRev
    split
    · rename_i hn
      have e := digitByte_toNat n
      unfold digitByte at e
      rw [Nat.mod_eq_of_lt hn] at e
      simp only [List.foldr_cons, List.foldr_nil, e]
      omega
    · have e := digitByte_toNat n
      unfold digitByte at e
      have h2 : n / 10 < 10 ^ (k + 1) := by
        rw [Nat.div_lt_iff_lt_mul (by norm_num)]
        rw [pow_succ] at h
        exact h
      simp only [List.foldr_cons, e, ih _ h2]
      omega

theorem Itoa_inj (a b : Nat) (ha : a < 2 ^ 32) (hb : b < 2 ^ 32)
    (h : Itoa (a : Int) = Itoa (b : Int)) : a = b := by
  have ha2 : a < 10 ^ (18 + 1) := by norm_num at ha ⊢; omega
  have hb2 : b < 10 ^ (18 + 1) := by norm_num at hb ⊢; omega
  have na : ¬ ((a : Int) < 0) := by omega
  have nb : ¬ ((b : Int) < 0) := by omega
  simp only [Itoa, na, nb, if_false, List.nil_append, Int.natAbs_ofNat,
    List.reverse_inj] at h
  rw [← digitsRev_value 18 a ha2, ← digitsRev_value 18 b hb2, h]

/-- Two texts get the same cache key exactly when their hashes agree. -/
theorem cacheKey_inj (a b : Bytes) : cacheKey a = cacheKey b ↔ fnv32 a = fnv32 b := by
  constructor
  · exact Itoa_inj _ _ (fnv32_lt a) (fnv32_lt b)
  · intro h; unfold cacheKey; rw [h]

/-- The amended C8: two matched blocks with the same code and the language tags
`l1` and `l2` get the same cache key, the decimal string of the 32-bit FNV-1
hash of the whole matched text, exactly when the hashes of the matched texts up
to the end of the language tag agree. -/
theorem cacheKey_same_code (l1 l2 content : Bytes) :
    cacheKey (Match.text { start := 0, lang := l1, content := content })
        = cacheKey (Match.text { start := 0, lang := l2, content := content })
      ↔ fnv32 (openTag ++ l1) = fnv32 (openTag ++ l2) := by
  rw [cacheKey_inj]
  simp only [Match.text, List.append_assoc]
  rw [← List.append_assoc openTag l1, ← List.append_assoc openTag l2, fnv32_append,
    fnv32_append (openTag ++ l2)]
  constructor
  · exact foldl_fnvStep_inj _ _ _ (fnv32_lt _) (fnv32_lt _)
  · intro h; rw [h]

/-- C8 at the language tags `seeydy` and `fypona` and the code `x := 1`: both
texts are matches with that tag and that code, the tags differ, and the cache
keys are the same (`878386783`); a document with the two blocks leaves one
cache entry, and the second block is answered with the output for the first. -/
theorem cacheKey_collision :
    find (lit "<pre><code class=\"seeydy\">x := 1</code></pre>")
        = some { start := 0, lang := lit "seeydy", content := lit "x := 1" }
      ∧ find (lit "<pre><code class=\"fypona\">x := 1</code></pre>")
        = some { start := 0, lang := lit "fypona", content := lit "x := 1" }
      ∧ lit "seeydy" ≠ lit "fypona"
      ∧ cacheKey (lit "<pre><code class=\"seeydy\">x := 1</code></pre>") = lit "878386783"
      ∧ cacheKey (lit "<pre><code class=\"fypona\">x := 1</code></pre>") = lit "878386783"
      ∧ pygmentize sampleEnv
          (lit "<pre><code class=\"seeydy\">x := 1</code></pre><pre><code class=\"fypona\">x := 1</code></pre>")
          emptyWorld
        = (.ok (lit "[seeydy|x := 1][seeydy|x := 1]"),
           { cache := [(lit "878386783", lit "[seeydy|x := 1]")],
             calls := [(lit "seeydy", lit "x := 1")], written := [], dropped := [] }) := by
  refine ⟨by decide, by decide, by decide, by decide, by decide, by decide⟩

/-! ## The cache -/

theorem replaceAll_done {σ : Type} (repl : Bytes → σ → Outcome Bytes × σ) (fuel : Nat)
    (src : Bytes) (w : σ) (hf : find src = none) :
    replaceAll repl (fuel + 1) src w = (.ok src, w) := by
  simp only [replaceAll, hf]

theorem replaceAll_stop {σ : Type} (repl : Bytes → σ → Outcome Bytes × σ) (fuel : Nat)
    (src : Bytes) (w w1 : σ) (m : Match) (e : Stop) (hf : find src = some m)
    (hr : repl m.text w = (.stop e, w1)) :
    replaceAll repl (fuel + 1) src w = (.stop e, w1) := by
  simp only [replaceAll, hf, hr]

theorem replaceAll_stop_later {σ : Type} (repl : Bytes → σ → Outcome Bytes × σ) (fuel : Nat)
    (src r : Bytes) (w w1 w2 : σ) (m : Match) (e : Stop) (hf : find src = some m)
    (hr : repl m.text w = (.ok r, w1))
    (hrest : replaceAll repl fuel (src.drop m.stop) w1 = (.stop e, w2)) :
    replaceAll repl (fuel + 1) src w = (.stop e, w2) := by
  simp only [replaceAll, hf, hr, hrest]

theorem replaceAll_step {σ : Type} (repl : Bytes → σ → Outcome Bytes × σ) (fuel : Nat)
    (src r rest : Bytes) (w w1 w2 : σ) (m : Match) (hf : find src = some m)
    (hr : repl m.text w = (.ok r, w1))
    (hrest : replaceAll repl fuel (src.drop m.stop) w1 = (.ok rest, w2)) :
    replaceAll repl (fuel + 1) src w = (.ok (src.take m.start ++ r ++ rest), w2) := by
  simp only [replaceAll, hf, hr, hrest]

/-- A relation between states that every replacement keeps is kept by
`replaceAll`. -/
theorem replaceAll_invariant {σ : Type} (repl : Bytes → σ → Outcome Bytes × σ)
    (R : σ → σ → Prop) (hrefl : ∀ w, R w w) (htrans : ∀ a b c, R a b → R b c → R a c)
    (hstep : ∀ inp w, R w (repl inp w).2) (fuel : Nat) (src : Bytes) (w : σ) :
    R w (replaceAll repl fuel src w).2 := by
  induction fuel generalizing src w with
  | zero => exact hrefl w
  | succ fuel ih =>
    cases hf : find src with
    | none => rw [replaceAll_done repl fuel src w hf]; exact hrefl w
    | some m =>
      have h1 := hstep m.text w
      cases hr : repl m.text w with
      | mk r w1 =>
        rw [hr] at h1
        cases r with
        | stop e => rw [replaceAll_stop repl fuel src w w1 m e hf hr]; exact h1
        | ok r =>
          have h2 := ih (src.drop m.stop) w1
          cases hrest : replaceAll repl fuel (src.drop m.stop) w1 with
          | mk o w2 =>
            rw [hrest] at h2
            cases o with
            | stop e =>
              rw [replaceAll_stop_later repl fuel src r w w1 w2 m e hf hr hrest]
              exact htrans _ _ _ h1 h2
            | ok o =>
              rw [replaceAll_step repl fuel src r o w w1 w2 m hf hr hrest]
              exact htrans _ _ _ h1 h2

/-- A cache file that is there is returned, and nothing changes. -/
theorem pygmentsReplacer_hit (env : Env) (inp v : Bytes) (w : World)
    (h : w.cache.lookup (cacheKey inp) = some v) :
    pygmentsReplacer env inp w = (.ok v, w) := by
  simp only [pygmentsReplacer, h]

theorem pygmentsReplacer_no_match (env : Env) (inp : Bytes) (w : World)
    (h : w.cache.lookup (cacheKey inp) = none) (hf : FindSubmatch inp = none) :
    pygmentsReplacer env inp w = (.stop .panic, w) := by
  simp only [pygmentsReplacer, h, hf]

theorem pygmentsReplacer_pipe (env : Env) (inp lang content : Bytes) (w : World)
    (h : w.cache.lookup (cacheKey inp) = none) (hf : FindSubmatch inp = some (lang, content))
    (hp : env.pipeBuffer < (env.UnescapeString content).length) :
    pygmentsReplacer env inp w = (.stop .hang, w) := by
  simp only [pygmentsReplacer, h, hf, hp, if_true]

theorem pygmentsReplacer_failed (env : Env) (inp lang content : Bytes) (w : World) (e : Stop)
    (h : w.cache.lookup (cacheKey inp) = none) (hf : FindSubmatch inp = some (lang, content))
    (hp : ¬ env.pipeBuffer < (env.UnescapeString content).length)
    (hh : env.highlighter w.calls lang (env.UnescapeString content) = .stop e) :
    pygmentsReplacer env inp w
      = (.stop e, { w with calls := (lang, env.UnescapeString content) :: w.calls }) := by
  simp only [pygmentsReplacer, h, hf, hp, if_false, hh]

theorem pygmentsReplacer_miss (env : Env) (inp lang content output : Bytes) (w : World)
    (h : w.cache.lookup (cacheKey inp) = none) (hf : FindSubmatch inp = some (lang, content))
    (hp : ¬ env.pipeBuffer < (env.UnescapeString content).length)
    (hh : env.highlighter w.calls lang (env.UnescapeString content) = .ok output) :
    pygmentsReplacer env inp w
      = (.ok output, writeCache env (cacheKey inp) output
          { w with calls := (lang, env.UnescapeString content) :: w.calls }) := by
  simp only [pygmentsReplacer, h, hf, hp, if_false, hh]

/-- The ways a replacement can go: a hit; no match, a pipe that is full or a
highlighter that does not return its output, which leave the cache, the
writes and the dropped errors as they are; and a miss that is answered and
written to the cache. -/
theorem pygmentsReplacer_cases (env : Env) (inp : Bytes) (w : World) :
    (∃ v, w.cache.lookup (cacheKey inp) = some v ∧ pygmentsReplacer env inp w = (.ok v, w))
      ∨ (∃ e w1, w.cache.lookup (cacheKey inp) = none
          ∧ pygmentsReplacer env inp w = (.stop e, w1)
          ∧ w1.cache = w.cache ∧ w1.written = w.written ∧ w1.dropped = w.dropped)
      ∨ (∃ lang content output, w.cache.lookup (cacheKey inp) = none
          ∧ pygmentsReplacer env inp w
            = (.ok output, writeCache env (cacheKey inp) output
                { w with calls := (lang, env.UnescapeString content) :: w.calls })) := by
  cases hl : w.cache.lookup (cacheKey inp) with
  | some v => exact Or.inl ⟨v, rfl, pygmentsReplacer_hit env inp v w hl⟩
  | none =>
    cases hf : FindSubmatch inp with
    | none =>
      exact Or.inr (Or.inl ⟨_, _, rfl, pygmentsReplacer_no_match env inp w hl hf, rfl, rfl, rfl⟩)
    | some lc =>
      obtain ⟨lang, content⟩ := lc
      by_cases hp : env.pipeBuffer < (env.UnescapeString content).length
      · exact Or.inr (Or.inl ⟨_, _, rfl, pygmentsReplacer_pipe env inp lang content w hl hf hp,
          rfl, rfl, rfl⟩)
      · cases hh : env.highlighter w.calls lang (env.UnescapeString content) with
        | stop e =>
          exact Or.inr (Or.inl ⟨_, _, rfl,
            pygmentsReplacer_failed env inp lang content w e hl hf hp hh, rfl, rfl, rfl⟩)
        | ok output =>
          exact Or.inr (Or.inr ⟨lang, content, output, rfl,
            pygmentsReplacer_miss env inp lang content output w hl hf hp hh⟩)

/-- A write to the cache leaves every other name as it is. -/
theorem writeCache_lookup (env : Env) (strsum output : Bytes) (w : World) (k : Bytes)
    (hk : ¬ k = strsum) :
    (writeCache env strsum output w).cache.lookup k = w.cache.lookup k := by
  have hk2 : (k == strsum) = false := by simpa using hk
  unfold writeCache
  cases env.cacheWrite w.calls strsum output with
  | none => rfl
  | some stored =>
    show List.lookup k ((strsum, stored) :: w.cache) = _
    rw [List.lookup_cons, hk2]

/-- A write to the cache that is not recorded as failed leaves the content
under the name. -/
theorem writeCache_ok (env : Env) (strsum output : Bytes) (w : World)
    (h : (writeCache env strsum output w).dropped.length ≤ w.dropped.length) :
    (writeCache env strsum output w).cache.lookup strsum = some output := by
  unfold writeCache at h ⊢
  by_cases hl : env.cacheWrite w.calls strsum output = some output
  · rw [hl]
    show List.lookup strsum ((strsum, output) :: w.cache) = _
    simp [List.lookup_cons]
  · simp only [hl, if_false, List.length_cons] at h
    omega

theorem writeCache_written (env : Env) (strsum output : Bytes) (w : World) :
    (writeCache env strsum output w).written = w.written := rfl

theorem writeCache_dropped (env : Env) (strsum output : Bytes) (w : World) :
    w.dropped.length ≤ (writeCache env strsum output w).dropped.length := by
  unfold writeCache
  by_cases hl : env.cacheWrite w.calls strsum output = some output
  · simp only [hl, if_true]; exact le_refl _
  · simp only [hl, if_false, List.length_cons]; omega

/-- The cache files that are there stay as they are through one replacement. -/
theorem pygmentsReplacer_keeps (env : Env) (inp : Bytes) (w : World) (k v : Bytes)
    (h : w.cache.lookup k = some v) :
    (pygmentsReplacer env inp w).2.cache.lookup k = some v := by
  rcases pygmentsReplacer_cases env inp w with ⟨v1, _, e⟩ | ⟨_, w1, _, e, hc, _, _⟩ |
    ⟨l, c, o, hl, e⟩
  · rw [e]; exact h
  · rw [e]; show w1.cache.lookup k = some v; rw [hc]; exact h
  · rw [e]
    have hk : ¬ k = cacheKey inp := fun e => by rw [e, hl] at h; cases h
    show (writeCache env (cacheKey inp) o _).cache.lookup k = some v
    rw [writeCache_lookup env _ _ _ k hk]
    exact h

/-- A replacement never takes a dropped error back. -/
theorem pygmentsReplacer_dropped (env : Env) (inp : Bytes) (w : World) :
    w.dropped.length ≤ (pygmentsReplacer env inp w).2.dropped.length := by
  rcases pygmentsReplacer_cases env inp w with ⟨v1, _, e⟩ | ⟨_, w1, _, e, _, _, hd⟩ |
    ⟨l, c, o, hl, e⟩
  · rw [e]
  · rw [e]; show w.dropped.length ≤ w1.dropped.length; rw [hd]
  · rw [e]
    exact writeCache_dropped env (cacheKey inp) o
      { w with calls := (l, env.UnescapeString c) :: w.calls }

/-- What a replacement returns is in the cache afterwards, under the key of the
text, unless the write to the cache failed. -/
theorem pygmentsReplacer_cached (env : Env) (inp r : Bytes) (w w1 : World)
    (h : pygmentsReplacer env inp w = (.ok r, w1))
    (hd : w1.dropped.length ≤ w.dropped.length) :
    w1.cache.lookup (cacheKey inp) = some r := by
  rcases pygmentsReplacer_cases env inp w with ⟨v1, hl, e⟩ | ⟨_, _, _, e, _, _, _⟩ |
    ⟨l, c, o, hl, e⟩
  · rw [e] at h
    simp only [Prod.mk.injEq, Outcome.ok.injEq] at h
    rw [← h.2, hl, h.1]
  · rw [e] at h; simp at h
  · rw [e] at h
    simp only [Prod.mk.injEq, Outcome.ok.injEq] at h
    obtain ⟨h1, h2⟩ := h
    subst h1 h2
    exact writeCache_ok env _ _ _ hd

/-- The cache files that are there stay as they are through `replaceAll`. -/
theorem replaceAll_keeps (env : Env) (fuel : Nat) (src : Bytes) (w : World) (k v : Bytes)
    (h : w.cache.lookup k = some v) :
    (replaceAll (pygmentsReplacer env) fuel src w).2.cache.lookup k = some v :=
  replaceAll_invariant (pygmentsReplacer env)
    (fun a b => ∀ k v, a.cache.lookup k = some v → b.cache.lookup k = some v)
    (fun _ _ _ h => h) (fun _ _ _ h1 h2 k v h => h2 k v (h1 k v h))
    (fun inp w k v h => pygmentsReplacer_keeps env inp w k v h) fuel src w k v h

/-- `replaceAll` never takes a dropped error back. -/
theorem replaceAll_dropped (env : Env) (fuel : Nat) (src : Bytes) (w : World) :
    w.dropped.length ≤ (replaceAll (pygmentsReplacer env) fuel src w).2.dropped.length :=
  replaceAll_invariant (pygmentsReplacer env)
    (fun a b => a.dropped.length ≤ b.dropped.length)
    (fun _ => le_refl _) (fun _ _ _ h1 h2 => le_trans h1 h2)
    (fun inp w => pygmentsReplacer_dropped env inp w) fuel src w

/-- `replaceAll` makes no call of `WriteFile` under the build directory. -/
theorem replaceAll_written (env : Env) (fuel : Nat) (src : Bytes) (w : World) :
    (replaceAll (pygmentsReplacer env) fuel src w).2.written = w.written :=
  replaceAll_invariant (pygmentsReplacer env) (fun a b => b.written = a.written)
    (fun _ => rfl) (fun _ _ _ h1 h2 => h2.trans h1)
    (fun inp w => by
      rcases pygmentsReplacer_cases env inp w with ⟨v1, _, e⟩ | ⟨_, w1, _, e, _, hw, _⟩ |
        ⟨l, c, o, _, e⟩
      · rw [e]
      · rw [e]; exact hw
      · rw [e]; rfl) fuel src w

/-- A run of `replaceAll` that completes without a failed write to the cache
is repeated, without any effect, from every state whose cache holds the files
of the state it reached. -/
theorem replaceAll_again (env : Env) (fuel : Nat) (src out : Bytes) (w w1 w2 : World)
    (h : replaceAll (pygmentsReplacer env) fuel src w = (.ok out, w1))
    (hd : w1.dropped.length ≤ w.dropped.length)
    (hext : ∀ k v, w1.cache.lookup k = some v → w2.cache.lookup k = some v) :
    replaceAll (pygmentsReplacer env) fuel src w2 = (.ok out, w2) := by
  induction fuel generalizing src out w with
  | zero =>
    simp only [replaceAll, Prod.mk.injEq, Outcome.ok.injEq] at h ⊢
    exact ⟨h.1, trivial⟩
  | succ fuel ih =>
    cases hf : find src with
    | none =>
      rw [replaceAll_done _ fuel src w hf] at h
      rw [replaceAll_done _ fuel src w2 hf]
      simp only [Prod.mk.injEq, Outcome.ok.injEq] at h ⊢
      exact ⟨h.1, trivial⟩
    | some m =>
      cases hr : pygmentsReplacer env m.text w with
      | mk r wa =>
        cases r with
        | stop e => rw [replaceAll_stop _ fuel src w wa m e hf hr] at h; simp at h
        | ok r =>
          cases hrest : replaceAll (pygmentsReplacer env) fuel (src.drop m.stop) wa with
          | mk o wb =>
            cases o with
            | stop e =>
              rw [replaceAll_stop_later _ fuel src r w wa wb m e hf hr hrest] at h; simp at h
            | ok o =>
              rw [replaceAll_step _ fuel src r o w wa wb m hf hr hrest] at h
              simp only [Prod.mk.injEq, Outcome.ok.injEq] at h
              obtain ⟨hout, hw⟩ := h
              subst hw
              have d1 : w.dropped.length ≤ wa.dropped.length := by
                have := pygmentsReplacer_dropped env m.text w
                rw [hr] at this
                exact this
              have d2 : wa.dropped.length ≤ wb.dropped.length := by
                have := replaceAll_dropped env fuel (src.drop m.stop) wa
                rw [hrest] at this
                exact this
              have hc := pygmentsReplacer_cached env m.text r w wa hr (by omega)
              have hc1 : wb.cache.lookup (cacheKey m.text) = some r := by
                have := replaceAll_keeps env fuel (src.drop m.stop) wa _ _ hc
                rw [hrest] at this
                exact this
              have e1 := pygmentsReplacer_hit env m.text r w2 (hext _ _ hc1)
              have e2 := ih (src.drop m.stop) o wa hrest (by omega)
              rw [replaceAll_step _ fuel src r o w2 w2 w2 m hf e1 e2, hout]

/-- C4: when a call of `pygmentize` on a document completes and its writes to
the cache took effect (it dropped no error of a write), a second call on the
same document from the state the first one reached returns the same bytes and
leaves the state as it is: the highlighter is not invoked and the cache is not
written. -/
theorem pygmentize_idempotent (env : Env) (doc out : Bytes) (w w1 : World)
    (h : pygmentize env doc w = (.ok out, w1)) (hwrites : w1.dropped = w.dropped) :
    pygmentize env doc w1 = (.ok out, w1)
      ∧ (pygmentize env doc w1).2.calls = w1.calls := by
  have h2 := replaceAll_again env doc.length doc out w w1 w1 h (by rw [hwrites])
    (fun _ _ h => h)
  exact ⟨h2, by unfold pygmentize; rw [h2]⟩

/-- C4 on the sample document, from the empty cache. -/
theorem pygmentize_idempotent_witness :
    pygmentize sampleEnv sampleDoc emptyWorld
        = (.ok (lit "See [go|x := 1].\n"),
           { cache := [(lit "3574855048", lit "[go|x := 1]")],
             calls := [(lit "go", lit "x := 1")], written := [], dropped := [] })
      ∧ pygmentize sampleEnv sampleDoc
          { cache := [(lit "3574855048", lit "[go|x := 1]")],
            calls := [(lit "go", lit "x := 1")], written := [], dropped := [] }
        = (.ok (lit "See [go|x := 1].\n"),
           { cache := [(lit "3574855048", lit "[go|x := 1]")],
             calls := [(lit "go", lit "x := 1")], written := [], dropped := [] }) :=
  ⟨by decide,
   (pygmentize_idempotent sampleEnv sampleDoc _ emptyWorld _ (by decide) (by decide)).1⟩

/-- C9: a cache file that is there before a call of `pygmentize`, or of
`pygmentsReplacer` on one block, is there afterwards with the same content
(also when the call panics or blocks, and when a write to the cache fails), and
a block whose key is in the cache is answered with the stored content, the
state left as it is: no invocation of the highlighter and no write. -/
theorem cache_write_once (env : Env) (w : World) (k v : Bytes)
    (h : w.cache.lookup k = some v) :
    (∀ doc, (pygmentize env doc w).2.cache.lookup k = some v)
      ∧ (∀ inp, (pygmentsReplacer env inp w).2.cache.lookup k = some v)
      ∧ (∀ inp, cacheKey inp = k → pygmentsReplacer env inp w = (.ok v, w)) := by
  refine ⟨fun doc => replaceAll_keeps env doc.length doc w k v h,
    fun inp => pygmentsReplacer_keeps env inp w k v h, ?_⟩
  intro inp hk
  exact pygmentsReplacer_hit env inp v w (by rw [hk]; exact h)

/-- C9 on a cache that holds the key of the sample block. -/
theorem cache_write_once_witness :
    (∀ doc, (pygmentize sampleEnv doc
        { cache := [(lit "3574855048", lit "stored")], calls := [], written := [],
          dropped := [] }).2.cache.lookup
          (lit "3574855048") = some (lit "stored"))
      ∧ pygmentsReplacer sampleEnv (lit "<pre><code class=\"go\">x := 1</code></pre>")
          { cache := [(lit "3574855048", lit "stored")], calls := [], written := [],
            dropped := [] }
        = (.ok (lit "stored"),
           { cache := [(lit "3574855048", lit "stored")], calls := [], written := [],
             dropped := [] }) := by
  have h := cache_write_once sampleEnv
    { cache := [(lit "3574855048", lit "stored")], calls := [], written := [], dropped := [] }
    (lit "3574855048") (lit "stored") (by decide)
  exact ⟨h.1, h.2.2 _ (by decide)⟩

/-! ## The matches -/

theorem Index_of_occurs (s sep : Bytes) (p : Nat) (h : sep <+: s.drop p) :
    ∃ i, Index s sep = some i ∧ i ≤ p := by
  cases hi : Index s sep with
  | none => exact absurd h (Index_none s sep hi p)
  | some i =>
    refine ⟨i, rfl, ?_⟩
    by_contra hlt
    exact (Index_some s sep i hi).2.2 p (by omega) h

theorem Match_text_eq (m : Match) : m.text = blockText m.lang m.content := rfl

theorem blockText_length (lang content : Bytes) :
    (blockText lang content).length = 33 + lang.length + content.length := by
  have h1 : openTag.length = 18 := by decide
  have h2 : midTag.length = 2 := by decide
  have h3 : closeTag.length = 13 := by decide
  simp only [blockText, List.length_append, h1, h2, h3]
  omega

theorem find_unfold (s : Bytes) (i j k : Nat) (h1 : Index s openTag = some i)
    (h2 : Index (s.drop (i + openTag.length)) midTag = some j)
    (h3 : Index ((s.drop (i + openTag.length)).drop (j + midTag.length)) closeTag = some k) :
    find s = some { start := i, lang := (s.drop (i + openTag.length)).take j,
                    content := ((s.drop (i + openTag.length)).drop (j + midTag.length)).take k } := by
  simp only [find, h1, h2, h3]

theorem find_stages (s : Bytes) (m : Match) (h : find s = some m) :
    ∃ i j k, Index s openTag = some i
      ∧ Index (s.drop (i + openTag.length)) midTag = some j
      ∧ Index ((s.drop (i + openTag.length)).drop (j + midTag.length)) closeTag = some k
      ∧ m = { start := i, lang := (s.drop (i + openTag.length)).take j,
              content := ((s.drop (i + openTag.length)).drop (j + midTag.length)).take k } := by
  cases h1 : Index s openTag with
  | none => simp only [find, h1] at h; cases h
  | some i =>
    cases h2 : Index (s.drop (i + openTag.length)) midTag with
    | none => simp only [find, h1, h2] at h; cases h
    | some j =>
      cases h3 : Index ((s.drop (i + openTag.length)).drop (j + midTag.length)) closeTag with
      | none => simp only [find, h1, h2, h3] at h; cases h
      | some k =>
        rw [find_unfold s i j k h1 h2 h3] at h
        exact ⟨i, j, k, rfl, h2, h3, (Option.some.inj h).symm⟩

/-- What `find` returns is the leftmost match with the shortest groups, and the
text is the text before it, the match and the text after it. -/
theorem find_some (s : Bytes) (m : Match) (h : find s = some m) :
    s = s.take m.start ++ blockText m.lang m.content ++ s.drop m.stop
      ∧ (s.take m.start).length = m.start
      ∧ FirstMatch (s.take m.start) m.lang m.content (s.drop m.stop) := by
  obtain ⟨i, j, k, h1, h2, h3, hm⟩ := find_stages s m h
  obtain ⟨a1, a2, a3⟩ := Index_some _ _ _ h1
  obtain ⟨b1, b2, b3⟩ := Index_some _ _ _ h2
  obtain ⟨c1, c2, c3⟩ := Index_some _ _ _ h3
  have e1 := drop_of_prefix _ _ _ a1
  have e2 := drop_of_prefix _ _ _ b1
  have e3 := drop_of_prefix _ _ _ c1
  have hl1 : (s.take i).length = i := by simp; omega
  generalize hs1 : s.drop (i + openTag.length) = s1 at *
  generalize hs2 : s1.drop (j + midTag.length) = s2 at *
  generalize hs3 : s2.drop (k + closeTag.length) = s3 at *
  generalize hgap : s.take i = gap at *
  have hm1 : m.start = i := by rw [hm]
  have hm2 : m.lang = s1.take j := by rw [hm]
  have hm3 : m.content = s2.take k := by rw [hm]
  have hl2 : (s1.take j).length = j := by simp; omega
  have hl3 : (s2.take k).length = k := by simp; omega
  have hfull : s = gap ++ blockText (s1.take j) (s2.take k) ++ s3 := by
    conv_lhs => rw [e1, e2, e3]
    simp only [blockText, List.append_assoc]
  have hstop : s.drop m.stop = s3 := by
    have : m.stop = (gap ++ blockText (s1.take j) (s2.take k)).length := by
      unfold Match.stop
      rw [Match_text_eq, hm1, hm2, hm3, List.length_append, hl1]
    rw [this]
    conv_lhs => rw [hfull]
    rw [List.drop_left]
  rw [hstop, hm1, hm2, hm3, hgap]
  refine ⟨hfull, hl1, ?_, ?_, ?_⟩
  · intro j1 hj1
    rw [hl1] at hj1
    rw [← hfull]
    exact a3 j1 hj1
  · intro j1 hj1
    rw [hl2] at hj1
    have : s1.take j ++ midTag ++ s2.take k ++ closeTag ++ s3 = s1 := by
      conv_rhs => rw [e2, e3]
      simp only [List.append_assoc]
    rw [this]
    exact b3 j1 hj1
  · intro j1 hj1
    rw [hl3] at hj1
    rw [← e3]
    exact c3 j1 hj1

theorem occurs_shift (s sep : Bytes) (a b : Nat) (hab : a ≤ b) (h : sep <+: s.drop b) :
    sep <+: (s.drop a).drop (b - a) := by
  rw [List.drop_drop]
  have e : a + (b - a) = b := by omega
  rw [e]
  exact h

theorem occurs_mid (a sep b : Bytes) : sep <+: (a ++ sep ++ b).drop a.length := by
  rw [List.append_assoc, List.drop_left]
  exact List.prefix_append _ _

/-- When `find` returns nothing there is no block in the text. -/
theorem find_none (s : Bytes) (h : find s = none) : ¬ HasBlock s := by
  rintro ⟨pre, lang, content, post, hs⟩
  have o1 : openTag <+: s.drop pre.length := by
    have := occurs_mid pre openTag (lang ++ midTag ++ content ++ closeTag ++ post)
    rw [hs]; simpa only [blockText, List.append_assoc] using this
  obtain ⟨i, h1, hi⟩ := Index_of_occurs _ _ _ o1
  have o2 : midTag <+: s.drop (pre ++ openTag ++ lang).length := by
    have := occurs_mid (pre ++ openTag ++ lang) midTag (content ++ closeTag ++ post)
    rw [hs]; simpa only [blockText, List.append_assoc] using this
  have o2s := occurs_shift s midTag (i + openTag.length) _
    (by simp only [List.length_append]; omega) o2
  obtain ⟨j, h2, hj⟩ := Index_of_occurs _ _ _ o2s
  have o3 : closeTag <+: s.drop (pre ++ openTag ++ lang ++ midTag ++ content).length := by
    have := occurs_mid (pre ++ openTag ++ lang ++ midTag ++ content) closeTag post
    rw [hs]; simpa only [blockText, List.append_assoc] using this
  have o3s := occurs_shift s closeTag (i + openTag.length) _
    (by simp only [List.length_append]; omega) o3
  have o3t := occurs_shift (s.drop (i + openTag.length)) closeTag (j + midTag.length) _
    (by simp only [List.length_append] at hj ⊢; omega) o3s
  obtain ⟨k, h3, _⟩ := Index_of_occurs _ _ _ o3t
  rw [find_unfold s i j k h1 h2 h3] at h
  cases h

/-- There is a block in the text exactly when `find` returns a match. -/
theorem find_eq_none_iff (s : Bytes) : find s = none ↔ ¬ HasBlock s := by
  constructor
  · exact find_none s
  · intro h
    cases hf : find s with
    | none => rfl
    | some m =>
      exfalso
      apply h
      exact ⟨s.take m.start, m.lang, m.content, s.drop m.stop, (find_some s m hf).1⟩

/-- With as much fuel as the text has bytes, what `replaceAll` returns is the
text with each match replaced. -/
theorem replaceAll_rewritten {σ : Type} (repl : Bytes → σ → Outcome Bytes × σ) (fuel : Nat)
    (src out : Bytes) (w w2 : σ) (hfuel : src.length ≤ fuel)
    (h : replaceAll repl fuel src w = (.ok out, w2)) : Rewritten repl src w out w2 := by
  induction fuel generalizing src out w with
  | zero =>
    have hs : src = [] := List.length_eq_zero.1 (by omega)
    simp only [replaceAll, Prod.mk.injEq, Outcome.ok.injEq] at h
    rw [← h.1, ← h.2]
    exact Rewritten.tail src w (find_none src (by rw [hs]; decide))
  | succ fuel ih =>
    cases hf : find src with
    | none =>
      rw [replaceAll_done _ fuel src w hf] at h
      simp only [Prod.mk.injEq, Outcome.ok.injEq] at h
      rw [← h.1, ← h.2]
      exact Rewritten.tail src w (find_none src hf)
    | some m =>
      cases hr : repl m.text w with
      | mk r wa =>
        cases r with
        | stop e => rw [replaceAll_stop _ fuel src w wa m e hf hr] at h; simp at h
        | ok r =>
          cases hrest : replaceAll repl fuel (src.drop m.stop) wa with
          | mk o wb =>
            cases o with
            | stop e =>
              rw [replaceAll_stop_later _ fuel src r w wa wb m e hf hr hrest] at h; simp at h
            | ok o =>
              rw [replaceAll_step _ fuel src r o w wa wb m hf hr hrest] at h
              simp only [Prod.mk.injEq, Outcome.ok.injEq] at h
              obtain ⟨hout, hw⟩ := h
              subst hw
              obtain ⟨hsrc, _, hfirst⟩ := find_some src m hf
              have hlen : (src.drop m.stop).length ≤ fuel := by
                have := congrArg List.length hsrc
                simp only [List.length_append, blockText_length] at this
                omega
              have hrec := ih (src.drop m.stop) o wa hlen hrest
              rw [Match_text_eq] at hr
              have := Rewritten.block _ _ _ _ r o w wa wb hfirst hr hrec
              rw [← hsrc, hout] at this
              exact this

/-- The match `find` returns on a text with a first match. -/
theorem find_of_FirstMatch (gap lang content rest : Bytes)
    (h : FirstMatch gap lang content rest) :
    find (gap ++ blockText lang content ++ rest)
      = some { start := gap.length, lang := lang, content := content } := by
  have e0 : gap ++ blockText lang content ++ rest
      = gap ++ openTag ++ (lang ++ midTag ++ content ++ closeTag ++ rest) := by
    simp only [blockText, List.append_assoc]
  have h1 : Index (gap ++ blockText lang content ++ rest) openTag = some gap.length := by
    apply Index_eq_some
    · rw [e0]; exact occurs_mid gap openTag _
    · exact h.leftmost
  have d1 : (gap ++ blockText lang content ++ rest).drop (gap.length + openTag.length)
      = lang ++ midTag ++ (content ++ closeTag ++ rest) := by
    rw [e0, ← List.length_append, List.drop_left]
    simp only [List.append_assoc]
  have h2 : Index ((gap ++ blockText lang content ++ rest).drop (gap.length + openTag.length))
      midTag = some lang.length := by
    rw [d1]
    apply Index_eq_some
    · exact occurs_mid lang midTag _
    · intro j hj
      have := h.lazyLang j hj
      simpa only [OccursAt, List.append_assoc] using this
  have d2 : ((gap ++ blockText lang content ++ rest).drop (gap.length + openTag.length)).drop
      (lang.length + midTag.length) = content ++ closeTag ++ rest := by
    rw [d1, ← List.length_append, List.drop_left]
  have h3 : Index (((gap ++ blockText lang content ++ rest).drop
      (gap.length + openTag.length)).drop (lang.length + midTag.length)) closeTag
      = some content.length := by
    rw [d2]
    apply Index_eq_some
    · exact occurs_mid content closeTag _
    · exact h.lazyContent
  rw [find_unfold _ _ _ _ h1 h2 h3, d2, d1]
  simp

/-- With as much fuel as the text has bytes, `replaceAll` returns the text with
each match replaced. -/
theorem replaceAll_of_rewritten {σ : Type} (repl : Bytes → σ → Outcome Bytes × σ)
    (src out : Bytes) (w w2 : σ) (h : Rewritten repl src w out w2) (fuel : Nat)
    (hfuel : src.length ≤ fuel) : replaceAll repl fuel src w = (.ok out, w2) := by
  induction h generalizing fuel with
  | tail s w hno =>
    have hf := (find_eq_none_iff s).2 hno
    cases fuel with
    | zero => rfl
    | succ n => exact replaceAll_done repl n s w hf
  | block gap lang content rest r out w w1 w2 hfirst hr _ ih =>
    have hf := find_of_FirstMatch gap lang content rest hfirst
    have hlen := blockText_length lang content
    simp only [List.length_append, hlen] at hfuel
    cases fuel with
    | zero => omega
    | succ n =>
      have hstop : (gap ++ blockText lang content ++ rest).drop
          (Match.stop { start := gap.length, lang := lang, content := content }) = rest := by
        have : Match.stop { start := gap.length, lang := lang, content := content }
            = (gap ++ blockText lang content).length := by
          simp only [Match.stop, Match_text_eq, List.length_append]
        rw [this, List.drop_left]
      have hrest := ih n (by omega)
      rw [← hstop] at hrest
      have := replaceAll_step repl n (gap ++ blockText lang content ++ rest) r out w w1 w2 _ hf
        (by rw [Match_text_eq]; exact hr) hrest
      rw [this]
      simp

/-- C10: `pygmentize` returns an output exactly when that output is the
document with each match of the pattern (leftmost, with the shortest groups)
replaced by the result of `pygmentsReplacer` on it, in order, and every byte
outside the matches kept in place; on a document without any block the output
is the document and the state (cache, invocations of the highlighter) is left
as it is. -/
theorem pygmentize_frame (env : Env) (doc : Bytes) (w : World) :
    (∀ out w2, pygmentize env doc w = (.ok out, w2) ↔
        Rewritten (pygmentsReplacer env) doc w out w2)
      ∧ (¬ HasBlock doc → pygmentize env doc w = (.ok doc, w)) := by
  constructor
  · intro out w2
    constructor
    · intro h
      exact replaceAll_rewritten _ doc.length doc out w w2 (le_refl _) h
    · intro h
      exact replaceAll_of_rewritten _ doc out w w2 h doc.length (le_refl _)
  · intro h
    have hf := (find_eq_none_iff doc).2 h
    unfold pygmentize
    cases hn : doc.length with
    | zero => rfl
    | succ n => exact replaceAll_done _ n doc w hf

/-- C10 on a document without any block and on the sample document. -/
theorem pygmentize_frame_witness :
    ¬ HasBlock (lit "<pre>plain</pre>\n")
      ∧ pygmentize sampleEnv (lit "<pre>plain</pre>\n") emptyWorld
          = (.ok (lit "<pre>plain</pre>\n"), emptyWorld)
      ∧ Rewritten (pygmentsReplacer sampleEnv) sampleDoc emptyWorld (lit "See [go|x := 1].\n")
          { cache := [(lit "3574855048", lit "[go|x := 1]")],
            calls := [(lit "go", lit "x := 1")], written := [], dropped := [] } :=
  ⟨find_none _ (by decide),
   (pygmentize_frame sampleEnv (lit "<pre>plain</pre>\n") emptyWorld).2 (find_none _ (by decide)),
   ((pygmentize_frame sampleEnv sampleDoc emptyWorld).1 _ _).1 (by decide)⟩

/-! ## Claims on the front matter -/

/-- The amended C5: the front-matter split succeeds exactly when the content
is a first line, a line break, the separator `---`, a second line break and a
body (it fails when the content ends before a second line break, also right
after `---`); it then returns the first line as the title and everything after
the second line break as the body, so that the title, the separator and the
body joined by line breaks are the content. In every other case it fails. -/
theorem frontMatter_split (source : Bytes) :
    (∀ title body, splitFrontMatter source = some (title, body)
        ↔ (10 ∉ title ∧ source = title ++ 10 :: (lit "---" ++ 10 :: body)))
      ∧ (splitFrontMatter source = none
        ↔ ¬ ∃ title body, 10 ∉ title ∧ source = title ++ 10 :: (lit "---" ++ 10 :: body)) := by
  refine ⟨fun title body => splitFrontMatter_spec source title body, ?_⟩
  constructor
  · rintro h ⟨title, body, ht⟩
    rw [(splitFrontMatter_spec source title body).2 ht] at h
    cases h
  · intro h
    cases hs : splitFrontMatter source with
    | none => rfl
    | some tb =>
      exact absurd ⟨tb.1, tb.2, (splitFrontMatter_spec source tb.1 tb.2).1 hs⟩ h

/-- C5, as stated, fails at `T\n---`: the second line is the separator and the
split fails (there is no third part). -/
theorem splitFrontMatter_no_body :
    secondLine (lit "T\n---") = some (lit "---")
      ∧ splitFrontMatter (lit "T\n---") = none := by
  constructor <;> decide

/-! ## Lemmas on `sort` -/

theorem mem_sinkLeft (x z : Post) (left : List Post) :
    z ∈ sinkLeft x left ↔ z = x ∨ z ∈ left := by
  induction left with
  | nil => simp [sinkLeft]
  | cons y left ih =>
    unfold sinkLeft
    split
    · simp only [List.mem_cons, ih]; tauto
    · simp only [List.mem_cons]

theorem perm_sinkLeft (x : Post) (left : List Post) :
    (sinkLeft x left).Perm (x :: left) := by
  induction left with
  | nil => simp [sinkLeft]
  | cons y left ih =>
    unfold sinkLeft
    split
    · exact ((List.Perm.cons y ih).trans (List.Perm.swap x y left))
    · exact List.Perm.refl _

/-- The inner loop keeps the part before the element in order (read from right
to left: never increasing). -/
theorem sorted_sinkLeft (x : Post) (left : List Post)
    (h : left.Pairwise (fun a b => b.Date.Unix ≤ a.Date.Unix)) :
    (sinkLeft x left).Pairwise (fun a b => b.Date.Unix ≤ a.Date.Unix) := by
  induction left with
  | nil => simp [sinkLeft]
  | cons y left ih =>
    rw [List.pairwise_cons] at h
    unfold sinkLeft
    split
    · rename_i hlt
      rw [List.pairwise_cons]
      refine ⟨?_, ih h.2⟩
      intro z hz
      rcases (mem_sinkLeft x z left).1 hz with rfl | hz
      · simp only [Less, decide_eq_true_eq] at hlt
        exact le_of_lt hlt
      · exact h.1 z hz
    · rename_i hlt
      simp only [Less, decide_eq_true_eq, not_lt] at hlt
      rw [List.pairwise_cons, List.pairwise_cons]
      refine ⟨?_, h⟩
      intro z hz
      rcases List.mem_cons.1 hz with rfl | hz
      · exact hlt
      · exact le_trans (h.1 z hz) hlt

theorem foldl_sinkLeft (p acc : List Post)
    (h : acc.Pairwise (fun a b => b.Date.Unix ≤ a.Date.Unix)) :
    (p.foldl (fun left x => sinkLeft x left) acc).Pairwise
        (fun a b => b.Date.Unix ≤ a.Date.Unix)
      ∧ (p.foldl (fun left x => sinkLeft x left) acc).Perm (p.reverse ++ acc) := by
  induction p generalizing acc with
  | nil => exact ⟨h, by simp⟩
  | cons x p ih =>
    have h1 := ih (sinkLeft x acc) (sorted_sinkLeft x acc h)
    refine ⟨h1.1, h1.2.trans ?_⟩
    simp only [List.reverse_cons, List.append_assoc, List.singleton_append]
    exact List.Perm.append_left _ (perm_sinkLeft x acc)

/-- What insertion sort leaves is a rearrangement of the posts. -/
theorem insertionSort_perm (p : PostSlice) : (insertionSort p).Perm p := by
  have h := (foldl_sinkLeft p [] List.Pairwise.nil).2
  simp only [insertionSort]
  simp only [List.append_nil] at h
  exact (List.reverse_perm _).trans (h.trans (List.reverse_perm p))

/-- What `PostSlice.Sort` leaves with insertion sort: the posts in ascending
order of date. -/
theorem Sort_ascending (p : PostSlice) :
    (PostSlice.Sort insertionSort p).Pairwise (fun a b => a.Date.Unix ≤ b.Date.Unix) := by
  have h := (foldl_sinkLeft p [] List.Pairwise.nil).1
  simp only [PostSlice.Sort, insertionSort]
  exact List.pairwise_reverse.2 h

/-- What `PostSlice.Sort` leaves is what `sort.Sort` leaves: with a
`sort.Sort` that rearranges, a rearrangement of the posts. -/
theorem Sort_perm (sortSort : PostSlice → PostSlice) (hsort : ∀ p, (sortSort p).Perm p)
    (p : PostSlice) : (PostSlice.Sort sortSort p).Perm p := hsort p

/-! ## Claims on `PostSlice` -/

/-- C1, at two posts dated 2023-01-01 and 2023-01-02 (`sort.Sort` is insertion
sort on two elements): `loadPosts` returns them with the earlier one first, so
the first date is strictly below the second and the order is not descending. -/
theorem loadPosts_two_posts_ascending :
    ∃ p0 p1, loadPosts insertionSort
          [lit "posts/2023-01-01-a.md", lit "posts/2023-01-02-b.md"]
        = some [p0, p1]
      ∧ p0.Date = Date 2023 1 1 0 0 0 0 ∧ p1.Date = Date 2023 1 2 0 0 0 0
      ∧ p0.Date.Unix < p1.Date.Unix
      ∧ ¬ (p0.Date.Unix ≥ p1.Date.Unix) := by
  refine ⟨_, _, rfl, ?_, ?_, ?_, ?_⟩ <;> decide

/-- C3: for `n ≥ 0`, `p.Limit(n)` returns `min(n, len(p))` elements, which are
a prefix of `p` (element by element), and returns `p` itself when
`n ≥ len(p)`. -/
theorem Limit_prefix (p : PostSlice) (n : Int) (hn : 0 ≤ n) :
    ∃ q, p.Limit n = some q
      ∧ q.length = min n.toNat p.length
      ∧ q <+: p
      ∧ (∀ i, i < q.length → q.get? i = p.get? i)
      ∧ ((p.length : Int) ≤ n → q = p) := by
  unfold PostSlice.Limit
  by_cases h : (p.length : Int) ≤ n
  · refine ⟨p, by simp [h], ?_, List.prefix_refl p, fun _ _ => rfl, fun _ => rfl⟩
    have : p.length ≤ n.toNat := by omega
    omega
  · refine ⟨p.take n.toNat, by simp [h, hn], ?_, List.take_prefix _ _, ?_, fun h1 => absurd h1 h⟩
    · simp
    · intro i hi
      simp only [List.length_take] at hi
      simp only [List.get?_eq_getElem?]
      rw [List.getElem?_take]
      simp [show i < n.toNat by omega]

/-- C3 on two posts and `n = 1`. -/
theorem Limit_prefix_witness :
    (0 : Int) ≤ 1 ∧ ∃ q, PostSlice.Limit
        [{ Content := [], Slug := lit "a", SourcePath := [], Title := [], Url := [],
           Date := Date 2023 1 1 0 0 0 0 },
         { Content := [], Slug := lit "b", SourcePath := [], Title := [], Url := [],
           Date := Date 2023 1 2 0 0 0 0 }] 1 = some q
      ∧ q.length = min (1 : Int).toNat 2 :=
  ⟨by decide, by
    obtain ⟨q, h1, h2, _⟩ := Limit_prefix
        [{ Content := [], Slug := lit "a", SourcePath := [], Title := [], Url := [],
           Date := Date 2023 1 1 0 0 0 0 },
         { Content := [], Slug := lit "b", SourcePath := [], Title := [], Url := [],
           Date := Date 2023 1 2 0 0 0 0 }] 1 (by decide)
    exact ⟨q, h1, h2⟩⟩

/-! ## The build -/

/-- A content that the front-matter split accepts has the separator as its
second line. -/
theorem secondLine_of_split (source title body : Bytes)
    (h : splitFrontMatter source = some (title, body)) :
    secondLine source = some (lit "---") := by
  obtain ⟨ht, hs⟩ := (splitFrontMatter_spec source title body).1 h
  have h1 : ∀ x ∈ title, ¬ (x == (10 : UInt8)) = true := by
    intro x hx e
    rw [beq_iff_eq] at e
    exact ht (e ▸ hx)
  have h2 : ∀ x ∈ lit "---", ¬ (x == (10 : UInt8)) = true := by decide
  unfold secondLine List.splitOn
  rw [hs, List.splitOnP_first _ title h1 10 (by decide),
    List.splitOnP_first _ (lit "---") h2 10 (by decide)]
  rfl

theorem loadPost_SourcePath (path : Bytes) (post : Post) (h : loadPost path = some post) :
    post.SourcePath = path := by
  unfold loadPost at h
  cases h1 : slice (Base path) 0 10 with
  | none => simp [h1] at h
  | some datePart =>
    cases h2 : sliceFrom (Base path) 11 with
    | none => simp [h1, h2] at h
    | some namePart =>
      cases h3 : Parse datePart with
      | none => simp [h1, h2, h3] at h
      | some date =>
        simp only [h1, h2, h3, Option.some.injEq] at h
        rw [← h]

theorem loadAll_mem (files : List Bytes) (posts : PostSlice) (h : loadAll files = some posts)
    (file : Bytes) (hf : file ∈ files) : ∃ p ∈ posts, p.SourcePath = file := by
  induction files generalizing posts with
  | nil => cases hf
  | cons f files ih =>
    unfold loadAll at h
    cases h1 : loadPost f with
    | none => simp [h1] at h
    | some post =>
      cases h2 : loadAll files with
      | none => simp [h1, h2] at h
      | some rest =>
        simp only [h1, h2, Option.some.injEq] at h
        subst h
        rcases List.mem_cons.1 hf with rfl | hf
        · exact ⟨post, List.mem_cons_self _ _, loadPost_SourcePath _ _ h1⟩
        · obtain ⟨p, hp, e⟩ := ih rest h2 hf
          exact ⟨p, List.mem_cons_of_mem _ hp, e⟩

/-- A post whose file lacks the separator makes `buildPost` panic before it
changes anything. -/
theorem buildPost_bad (env : Env) (post : Post) (w : World) (source : Bytes)
    (hread : env.ReadFile post.SourcePath = some source)
    (hbad : splitFrontMatter source = none) : buildPost env post w = (.stop .panic, w) := by
  simp only [buildPost, hread, hbad]

/-- The calls of `WriteFile` of `buildPost`: none when it does not return, and
the one for the page of the post otherwise. -/
theorem buildPost_written (env : Env) (post : Post) (w : World) :
    (∃ e w1, buildPost env post w = (.stop e, w1) ∧ w1.written = w.written)
      ∨ (∃ post1 w1 page, buildPost env post w = (.ok post1, w1)
          ∧ w1.written = (outFile post, page) :: w.written) := by
  cases h1 : env.ReadFile post.SourcePath with
  | none => exact Or.inl ⟨.panic, w, by simp only [buildPost, h1], rfl⟩
  | some source =>
    cases h2 : splitFrontMatter source with
    | none => exact Or.inl ⟨.panic, w, by simp only [buildPost, h1, h2], rfl⟩
    | some tb =>
      obtain ⟨title, content⟩ := tb
      cases h3 : env.postLayout with
      | none => exact Or.inl ⟨.panic, w, by simp only [buildPost, h1, h2, h3], rfl⟩
      | some ts =>
        obtain ⟨post1, hp⟩ : ∃ post1 : Post,
            post1 = { post with Title := title, Content := env.MarkdownCommon content } :=
          ⟨_, rfl⟩
        have hw := replaceAll_written env (ts post1).length (ts post1) w
        cases h4 : pygmentize env (ts post1) w with
        | mk r w1 =>
          have h5 := h4
          unfold pygmentize at h5
          rw [h5] at hw
          have hw2 : w1.written = w.written := hw
          rw [hp] at h4
          cases r with
          | stop e => exact Or.inl ⟨e, w1, by simp only [buildPost, h1, h2, h3, h4], hw⟩
          | ok highlighted =>
            have hb : buildPost env post w = (.ok post1,
                World.mk w1.cache w1.calls ((outFile post1, highlighted) :: w1.written)
                  w1.dropped) := by
              simp only [buildPost, h1, h2, h3, h4, hp]
            refine Or.inr ⟨_, _, highlighted, hb, ?_⟩
            show (outFile post1, highlighted) :: w1.written = _
            rw [hw2, hp]
            rfl

/-- The loop over the posts does not return when one of them lacks the
separator: it stops in `buildPost` of a post `q`, which is the post that lacks
the separator or one before it, and the calls of `WriteFile` made then are
those for the pages of the posts before `q`. -/
theorem buildPosts_bad (env : Env) (posts : PostSlice) (w : World) (file source : Bytes)
    (hmem : ∃ p ∈ posts, p.SourcePath = file)
    (hread : env.ReadFile file = some source) (hbad : splitFrontMatter source = none) :
    ∃ e w1 pre q rest pre1 wq new, posts = pre ++ q :: rest
      ∧ (∃ p ∈ q :: rest, p.SourcePath = file) ∧ (∀ p ∈ pre, p.SourcePath ≠ file)
      ∧ buildPosts env pre w = (.ok pre1, wq)
      ∧ buildPost env q wq = (.stop e, w1)
      ∧ buildPosts env posts w = (.stop e, w1)
      ∧ w1.written = new ++ w.written
      ∧ new.map Prod.fst = (pre.map outFile).reverse := by
  induction posts generalizing w with
  | nil => obtain ⟨p, hp, _⟩ := hmem; cases hp
  | cons x xs ih =>
    rcases buildPost_written env x w with ⟨e, w1, hb, hw⟩ | ⟨x1, w1, page, hb, hw⟩
    · refine ⟨e, w1, [], x, xs, [], w, [], rfl, hmem, ?_, rfl, hb, ?_, by simpa using hw, rfl⟩
      · intro p hp
        cases hp
      · simp only [buildPosts, hb]
    · have hx : x.SourcePath ≠ file := by
        intro e
        rw [buildPost_bad env x w source (by rw [e]; exact hread) hbad] at hb
        cases hb
      have hmem2 : ∃ p ∈ xs, p.SourcePath = file := by
        obtain ⟨p, hp, e⟩ := hmem
        rcases List.mem_cons.1 hp with rfl | hp
        · exact absurd e hx
        · exact ⟨p, hp, e⟩
      obtain ⟨e, w2, pre, q, rest, pre1, wq, new, h2, h3, h4, hpre, hq, h1, h5, h6⟩ :=
        ih w1 hmem2
      refine ⟨e, w2, x :: pre, q, rest, x1 :: pre1, wq, new ++ [(outFile x, page)],
        by rw [h2]; rfl, h3, ?_, ?_, hq, ?_, ?_, ?_⟩
      · intro p hp
        rcases List.mem_cons.1 hp with rfl | hp
        · exact hx
        · exact h4 p hp
      · simp only [buildPosts, hb, hpre]
      · simp only [buildPosts, hb, h1]
      · rw [h5, hw]; simp
      · simp [h6]

/-- A post file named `2023-01-01-.md` has an empty slug, and the path of its
page is `public//index.html`, which the file system takes for the index
file. -/
theorem outFile_empty_slug :
    (loadPost (lit "posts/2023-01-01-.md")).map (fun post => (post.Slug, outFile post))
      = some ([], lit "public//index.html") := by
  decide

/-- With a pipe of four bytes the sample run blocks forever in the first post,
on the write of the code `x := 1` to the standard input of the highlighter,
before it reaches the post without separator: it does not panic, and it has
made no call of `WriteFile` and no invocation of the highlighter. -/
theorem main_blocks_on_small_pipe :
    main smallPipeEnv emptyWorld = (.stop .hang, emptyWorld) := by
  decide

/-- The amended C7: when a file of the posts directory has a second line that
is not the separator, the run does not complete. It panics in `loadPosts`, with
nothing done, or it stops (a panic, or a highlighter step that blocks forever)
inside `buildPost` of a post `q` that is the post of that file or comes before
it in the order of the build, so that `buildIndex` and `copyStaticAssets` are
not reached; at the post of that file itself it is a panic, with nothing done
for that post. The calls of `WriteFile` made under the build directory at that
moment are exactly those of `buildPost` for the posts built before `q`, one for
each, to the page path of the post; none is made for the post of that file, for
a post after it or for the index. The order of the build is what `sort.Sort`
leaves, for every `sort.Sort` that rearranges the posts. -/
theorem main_aborts (env : Env) (w : World) (file source : Bytes)
    (hsort : ∀ p, (env.sortSort p).Perm p)
    (hfile : file ∈ env.Glob) (hread : env.ReadFile file = some source)
    (hbad : secondLine source ≠ some (lit "---")) :
    ∃ e w1, main env w = (.stop e, w1)
      ∧ ((loadPosts env.sortSort env.Glob = none ∧ e = .panic ∧ w1 = w)
        ∨ ∃ pre q rest pre1 wq new,
            loadPosts env.sortSort env.Glob = some (pre ++ q :: rest)
            ∧ (∃ p ∈ q :: rest, p.SourcePath = file) ∧ (∀ p ∈ pre, p.SourcePath ≠ file)
            ∧ buildPosts env pre w = (.ok pre1, wq)
            ∧ buildPost env q wq = (.stop e, w1)
            ∧ (q.SourcePath = file → e = .panic ∧ w1 = wq)
            ∧ w1.written = new ++ w.written
            ∧ new.map Prod.fst = (pre.map outFile).reverse) := by
  have hsplit : splitFrontMatter source = none := by
    cases hs : splitFrontMatter source with
    | none => rfl
    | some tb => exact absurd (secondLine_of_split source tb.1 tb.2 hs) hbad
  cases hl : loadAll env.Glob with
  | none =>
    have hl2 : loadPosts env.sortSort env.Glob = none := by simp only [loadPosts, hl]
    exact ⟨.panic, w, by simp only [main, hl2], Or.inl ⟨hl2, rfl, rfl⟩⟩
  | some loaded =>
    have hl2 : loadPosts env.sortSort env.Glob = some (PostSlice.Sort env.sortSort loaded) := by
      simp only [loadPosts, hl]
    obtain ⟨p, hp, hpf⟩ := loadAll_mem _ _ hl file hfile
    have hp2 : p ∈ PostSlice.Sort env.sortSort loaded :=
      (Sort_perm env.sortSort hsort loaded).mem_iff.2 hp
    obtain ⟨e, w1, pre, q, rest, pre1, wq, new, h2, h3, h4, hpre, hq, h1, h5, h6⟩ :=
      buildPosts_bad env (PostSlice.Sort env.sortSort loaded) w file source ⟨p, hp2, hpf⟩ hread
        hsplit
    refine ⟨e, w1, by simp only [main, hl2, h1],
      Or.inr ⟨pre, q, rest, pre1, wq, new, by rw [hl2, h2], h3, h4, hpre, hq, ?_, h5, h6⟩⟩
    intro hqf
    rw [buildPost_bad env q wq source (by rw [hqf]; exact hread) hsplit] at hq
    simp only [Prod.mk.injEq, Outcome.stop.injEq] at hq
    exact ⟨hq.1.symm, hq.2.symm⟩

/-- The amended C7 on the sample directory. -/
theorem main_aborts_witness :
    ∃ e w1, main sampleEnv emptyWorld = (.stop e, w1)
      ∧ ((loadPosts sampleEnv.sortSort sampleEnv.Glob = none ∧ e = .panic ∧ w1 = emptyWorld)
        ∨ ∃ pre q rest pre1 wq new,
            loadPosts sampleEnv.sortSort sampleEnv.Glob = some (pre ++ q :: rest)
            ∧ (∃ p ∈ q :: rest, p.SourcePath = lit "posts/2023-01-02-bad.md")
            ∧ (∀ p ∈ pre, p.SourcePath ≠ lit "posts/2023-01-02-bad.md")
            ∧ buildPosts sampleEnv pre emptyWorld = (.ok pre1, wq)
            ∧ buildPost sampleEnv q wq = (.stop e, w1)
            ∧ (q.SourcePath = lit "posts/2023-01-02-bad.md" → e = .panic ∧ w1 = wq)
            ∧ w1.written = new ++ emptyWorld.written
            ∧ new.map Prod.fst = (pre.map outFile).reverse) :=
  main_aborts sampleEnv emptyWorld (lit "posts/2023-01-02-bad.md") (lit "Bad\n\nno separator\n")
    insertionSort_perm (by decide) (by decide) (by decide)

/-- C7, as stated, fails on a directory with the posts `old` (2023-01-01),
`bad` (2023-01-02, whose second line is empty) and `new` (2023-01-03): the run
panics, and at that moment `WriteFile` has been called for the page
`public/old/index.html`. -/
theorem main_writes_before_abort :
    lit "posts/2023-01-02-bad.md" ∈ sampleEnv.Glob
      ∧ sampleEnv.ReadFile (lit "posts/2023-01-02-bad.md") = some (lit "Bad\n\nno separator\n")
      ∧ secondLine (lit "Bad\n\nno separator\n") ≠ some (lit "---")
      ∧ (main sampleEnv emptyWorld).1 = .stop .panic
      ∧ (main sampleEnv emptyWorld).2.written
          = [(lit "public/old/index.html", lit "Old: See [go|x := 1].\n")] := by
  refine ⟨by decide, by decide, by decide, by decide, by decide⟩

end Bloggy
